import Mathlib

/-!
Verification development for the storage / transaction core
(buffer manager with LRU-K replacement, extendible hash directory,
B+tree index, lock manager with deadlock detection).

Each component is shallowly embedded from its C++ source file
(`lru_k_replacer.cpp` / `buffer_pool_manager_instance.cpp`,
`extendible_hash_table.cpp`, `b_plus_tree.cpp` / `b_plus_tree_page.cpp`,
`lock_manager.cpp`).  Node-level B+tree page primitives and the
deadlock-detector's depth-first search, whose method bodies are not in
the provided sources, are modelled from the specification and marked
`Modelled from the spec:` in their doc comments.
-/

set_option linter.unusedVariables false

namespace BusTub

namespace LRUK

/-- Replacer node (from `LRUKReplacer::Node`): frame id, the list of recorded
access timestamps in chronological order (`timestamp_`, appended by
`push_back`), and the evictable flag.  Modelled from the spec: the node's
evictable flag starts off (the evictable count is only ever changed by
`SetEvictable`, so a freshly inserted node must not count as evictable). -/
structure RNode where
  frameId : Int
  timestamps : List Nat
  evictable : Bool
deriving Repr, DecidableEq

/-- State of `LRUKReplacer`: parameter `k`, capacity `replacerSize`
(`num_frames`), the history list (`mp1_` / the `history_head_ … history_tail_`
doubly-linked list, kept head-first: a new node is linked right after the
head), the cache list (`mp2_`, same orientation), the timestamp counter and
the two size counters maintained by the C++ code. -/
structure Replacer where
  k : Nat
  replacerSize : Nat
  history : List RNode
  cache : List RNode
  currentTimestamp : Nat
  currSize : Nat
  evictSize : Nat
deriving Repr, DecidableEq

/-- Fresh replacer, from the `LRUKReplacer` constructor. -/
def Replacer.init (numFrames k : Nat) : Replacer :=
  { k := k, replacerSize := numFrames, history := [], cache := [],
    currentTimestamp := 0, currSize := 0, evictSize := 0 }

/-- Number of recorded accesses of a node (`timestamp_.size()`). -/
def RNode.accessCount (n : RNode) : Nat := n.timestamps.length

/-- Timestamp of the earliest recorded access of a node. -/
def RNode.earliestAccess (n : RNode) : Nat := n.timestamps.headD 0

/-- Value read by `Evict` for a cache node: `timestamp_[timestamp_.size() - k_]`,
the K-th most recent access timestamp. -/
def RNode.kthRecent (k : Nat) (n : RNode) : Nat :=
  n.timestamps.getD (n.timestamps.length - k) 0

/-- Lookup a node of a list by frame id (`mp1_.find` / `mp2_.find`). -/
def findNode (l : List RNode) (f : Int) : Option RNode :=
  l.find? (fun n => n.frameId = f)

/-- Remove the (first) node with the given frame id from a list: the list
unlink `p->pre_->next_ = p->next_; …` plus the map erase. -/
def removeNode (l : List RNode) (f : Int) : List RNode :=
  l.eraseP (fun n => n.frameId = f)

/-- History scan of `Evict`: starting from `history_tail_->pre_` and walking
toward the head, stop at the first evictable node; equivalently the last
evictable node of the head-first list. -/
def historyVictim (l : List RNode) : Option RNode :=
  l.reverse.find? (fun n => n.evictable)

/-- Cache scan of `Evict`: walk from `cache_tail_->pre_` toward the head
carrying the best `(m, f)` pair so far (`m` starts at `UINT64_MAX`, `f` at
`-1`); an evictable node strictly improving `m` replaces the pair.  The input
list is supplied already reversed (tail-first). -/
def cacheScan (k : Nat) : List RNode → Option (Nat × Int) → Option (Nat × Int)
  | [], best => best
  | n :: rest, best =>
      if n.evictable then
        let kt := n.kthRecent k
        match best with
        | none => cacheScan k rest (some (kt, n.frameId))
        | some (m, f) =>
            if kt < m then cacheScan k rest (some (kt, n.frameId))
            else cacheScan k rest (some (m, f))
      else cacheScan k rest best

/-- Cache victim of `Evict`: best pair of the tail-first scan, provided its
frame id differs from `-1` (the C++ `if (f != -1)` test). -/
def cacheVictim (k : Nat) (l : List RNode) : Option Int :=
  match cacheScan k l.reverse none with
  | some (_, f) => if f ≠ -1 then some f else none
  | none => none

/-- `LRUKReplacer::Evict`.  Returns the chosen frame id (`none` for the
`return false` paths) together with the successor state. -/
def evict (r : Replacer) : Option Int × Replacer :=
  if r.evictSize ≠ 0 then
    match (if ¬r.history.isEmpty then historyVictim r.history else none) with
    | some n =>
        (some n.frameId,
         { r with history := removeNode r.history n.frameId,
                  evictSize := r.evictSize - 1, currSize := r.currSize - 1 })
    | none =>
        match (if ¬r.cache.isEmpty then cacheVictim r.k r.cache else none) with
        | some f =>
            (some f,
             { r with cache := removeNode r.cache f,
                      evictSize := r.evictSize - 1, currSize := r.currSize - 1 })
        | none => (none, r)
  else (none, r)

/-- Append the current timestamp to the node with the given frame id
(`p->timestamp_.push_back(current_timestamp_++)`). -/
def touchNode (f : Int) (ts : Nat) (l : List RNode) : List RNode :=
  l.map fun n =>
    if n.frameId = f then { n with timestamps := n.timestamps ++ [ts] } else n

/-- Insert a brand-new node for `frame_id` (body shared by the two insertion
sites of `RecordAccess`): one access is recorded; the node joins the history
list head if its access count is still below `k`, the cache list head
otherwise; `curr_size_` grows. -/
def insertFresh (f : Int) (r : Replacer) : Replacer :=
  let n : RNode := { frameId := f, timestamps := [r.currentTimestamp], evictable := false }
  let r := { r with currentTimestamp := r.currentTimestamp + 1, currSize := r.currSize + 1 }
  if 1 < r.k then { r with history := n :: r.history }
  else { r with cache := n :: r.cache }

/-- `LRUKReplacer::RecordAccess`.  A history node gets one more timestamp and
migrates to the cache head once its count reaches `k`; a cache node just gets
the timestamp; an unknown frame is inserted fresh — evicting a victim first
(`Evict(nullptr)`) when the replacer is at capacity, and doing nothing when
that eviction fails.  No range check is performed on `frame_id`. -/
def recordAccess (f : Int) (r : Replacer) : Replacer :=
  match findNode r.history f with
  | some n =>
      let n' : RNode := { n with timestamps := n.timestamps ++ [r.currentTimestamp] }
      let r := { r with currentTimestamp := r.currentTimestamp + 1 }
      if r.k ≤ n'.timestamps.length then
        { r with history := removeNode r.history f, cache := n' :: r.cache }
      else
        { r with history := touchNode f (r.currentTimestamp - 1) r.history }
  | none =>
      match findNode r.cache f with
      | some _ =>
          { r with cache := touchNode f r.currentTimestamp r.cache,
                   currentTimestamp := r.currentTimestamp + 1 }
      | none =>
          if r.currSize < r.replacerSize then insertFresh f r
          else
            match evict r with
            | (some _, r') => insertFresh f r'
            | (none, r') => r'

/-- `LRUKReplacer::SetEvictable`.  The two `assert`s reject a frame id outside
`[0, replacer_size_)` (`none` models the aborted process); a tracked frame's
flag is updated together with `evict_size_`; an untracked frame is ignored. -/
def setEvictable (f : Int) (b : Bool) (r : Replacer) : Option Replacer :=
  if f < 0 ∨ (r.replacerSize : Int) ≤ f then none
  else
    match findNode r.history f with
    | some n =>
        some { r with
          history := r.history.map fun m =>
            if m.frameId = f then { m with evictable := b } else m,
          evictSize :=
            if b ∧ ¬n.evictable then r.evictSize + 1
            else if ¬b ∧ n.evictable then r.evictSize - 1
            else r.evictSize }
    | none =>
        match findNode r.cache f with
        | some n =>
            some { r with
              cache := r.cache.map fun m =>
                if m.frameId = f then { m with evictable := b } else m,
              evictSize :=
                if b ∧ ¬n.evictable then r.evictSize + 1
                else if ¬b ∧ n.evictable then r.evictSize - 1
                else r.evictSize }
        | none => some r

/-- `LRUKReplacer::Remove`.  A tracked evictable frame is unlinked and the
counters drop; a tracked non-evictable frame hits `abort()` (`none`); an
untracked frame id — with no range check — is a no-op. -/
def remove (f : Int) (r : Replacer) : Option Replacer :=
  match findNode r.history f with
  | some n =>
      if n.evictable then
        some { r with history := removeNode r.history f,
                      evictSize := r.evictSize - 1, currSize := r.currSize - 1 }
      else none
  | none =>
      match findNode r.cache f with
      | some n =>
          if n.evictable then
            some { r with cache := removeNode r.cache f,
                          evictSize := r.evictSize - 1, currSize := r.currSize - 1 }
          else none
      | none => some r

/-- `LRUKReplacer::Size`. -/
def size (r : Replacer) : Nat := r.evictSize

/-- Replacer states reachable through the public interface: a freshly
constructed replacer (with a meaningful `k ≥ 1`) evolved by `RecordAccess`,
successful `SetEvictable` and `Remove` calls, and `Evict`. -/
inductive Reach : Replacer → Prop
  | init (numFrames k : Nat) (hk : 1 ≤ k) : Reach (Replacer.init numFrames k)
  | record (f : Int) (r : Replacer) : Reach r → Reach (recordAccess f r)
  | setEv (f : Int) (b : Bool) (r r2 : Replacer) :
      Reach r → setEvictable f b r = some r2 → Reach r2
  | rem (f : Int) (r r2 : Replacer) :
      Reach r → remove f r = some r2 → Reach r2
  | ev (r : Replacer) : Reach r → Reach (evict r).2

/-- State invariant of the replacer maintained by every interface call:
history nodes have between 1 and `k − 1` recorded accesses while cache nodes
have at least `k`; `evict_size_` counts the evictable nodes; an evictable
node's frame id is never negative (`SetEvictable` rejects those); the
history list is strictly ordered by earliest access, newest first; every
earliest access lies below the timestamp counter; and no two nodes share a
frame id. -/
structure Inv (r : Replacer) : Prop where
  hk : 1 ≤ r.k
  histLo : ∀ n ∈ r.history, 1 ≤ n.accessCount
  histHi : ∀ n ∈ r.history, n.accessCount < r.k
  cacheLo : ∀ n ∈ r.cache, r.k ≤ n.accessCount
  evictEq : r.evictSize = (r.history ++ r.cache).countP (fun n => n.evictable)
  evictPos : ∀ n ∈ r.history ++ r.cache, n.evictable = true → 0 ≤ n.frameId
  sorted : List.Pairwise (fun a b => b.earliestAccess < a.earliestAccess) r.history
  tsLt : ∀ n ∈ r.history, n.earliestAccess < r.currentTimestamp
  fidNodup : ((r.history ++ r.cache).map (fun n => n.frameId)).Nodup

end LRUK

namespace BPM

/-- One slot of the `pages_` array (class `Page`): page id (`INVALID_PAGE_ID`
is `-1`), pin count, dirty flag, and the raw content abstracted to a single
natural number (`ResetMemory` zeroes it). -/
structure BPage where
  pageId : Int
  pinCount : Int
  isDirty : Bool
  data : Nat
deriving Repr, DecidableEq

/-- Default-constructed page slot. -/
def BPage.empty : BPage := { pageId := -1, pinCount := 0, isDirty := false, data := 0 }

/-- State of `BufferPoolManagerInstance`: the frame array, the page table
(the `ExtendibleHashTable<page_id_t, frame_id_t>` used through its
`Find`/`Insert`/`Remove` map interface, embedded as an association list),
the free list, the replacer, the page-id allocator, and the disk pager —
`disk` holds the last written content per page id and `diskWrites` logs every
`WritePage` call in order. -/
structure Pool where
  poolSize : Nat
  pages : List BPage
  pageTable : List (Int × Int)
  freeList : List Int
  replacer : LRUK.Replacer
  nextPageId : Int
  disk : List (Int × Nat)
  diskWrites : List (Int × Nat)
deriving Repr, DecidableEq

/-- Fresh pool, from the `BufferPoolManagerInstance` constructor: every frame
is default-initialised and sits in the free list (`emplace_back` of
`0, …, pool_size-1`, so the back of the list is frame `pool_size - 1`). -/
def Pool.init (poolSize k : Nat) : Pool :=
  { poolSize := poolSize,
    pages := List.replicate poolSize BPage.empty,
    pageTable := [],
    freeList := (List.range poolSize).map Int.ofNat,
    replacer := LRUK.Replacer.init poolSize k,
    nextPageId := 0, disk := [], diskWrites := [] }

/-- `page_table_->Find(page_id, frame_id)`. -/
def ptFind (l : List (Int × Int)) (pid : Int) : Option Int :=
  (l.find? (fun e => e.1 = pid)).map (fun e => e.2)

/-- `page_table_->Insert(page_id, frame_id)` (overwrite on duplicate key). -/
def ptInsert (l : List (Int × Int)) (pid fid : Int) : List (Int × Int) :=
  (l.eraseP (fun e => e.1 = pid)) ++ [(pid, fid)]

/-- `page_table_->Remove(page_id)`. -/
def ptRemove (l : List (Int × Int)) (pid : Int) : List (Int × Int) :=
  l.eraseP (fun e => e.1 = pid)

/-- Frame slot read (`pages_[frame_id]`). -/
def getPage (s : Pool) (fid : Int) : BPage := s.pages.getD fid.toNat BPage.empty

/-- Frame slot write. -/
def setPage (s : Pool) (fid : Int) (p : BPage) : Pool :=
  { s with pages := s.pages.set fid.toNat p }

/-- `disk_manager_->WritePage(pid, data)`: the disk content for `pid` is
replaced and the write is logged. -/
def writePage (pid : Int) (data : Nat) (s : Pool) : Pool :=
  { s with disk := (s.disk.eraseP (fun e => e.1 = pid)) ++ [(pid, data)],
           diskWrites := s.diskWrites ++ [(pid, data)] }

/-- `disk_manager_->ReadPage(pid)`: last written content (a page never
written reads as zeroes). -/
def readPage (pid : Int) (s : Pool) : Nat :=
  ((s.disk.find? (fun e => e.1 = pid)).map (fun e => e.2)).getD 0

/-- Frame acquisition block shared verbatim by `NewPgImp` and `FetchPgImp`:
take the back of the free list if possible, otherwise evict a victim, write
it back first if it is dirty (clearing its dirty bit), and drop its page
table entry.  `none` models the `return nullptr` taken when eviction fails. -/
def obtainFrame (s : Pool) : Option (Int × Pool) :=
  if ¬s.freeList.isEmpty then
    some (s.freeList.getLastD 0, { s with freeList := s.freeList.dropLast })
  else
    match LRUK.evict s.replacer with
    | (some fid, rep) =>
        let s := { s with replacer := rep }
        let pg := getPage s fid
        let s :=
          if pg.isDirty then
            setPage (writePage pg.pageId pg.data s) fid { pg with isDirty := false }
          else s
        some (fid, { s with pageTable := ptRemove s.pageTable (getPage s fid).pageId })
    | (none, _) => none

/-- `BufferPoolManagerInstance::NewPgImp`.  Returns the allocated page id and
the updated pool (`none` for `return nullptr`). -/
def newPg (s : Pool) : Option (Int × Pool) :=
  match obtainFrame s with
  | none => none
  | some (fid, s) =>
      let pid := s.nextPageId
      let s := { s with nextPageId := pid + 1 }
      let s := setPage s fid { pageId := pid, pinCount := 1, isDirty := true, data := 0 }
      let s := { s with pageTable := ptInsert s.pageTable pid fid }
      let s := { s with replacer := LRUK.recordAccess fid s.replacer }
      match LRUK.setEvictable fid false s.replacer with
      | some rep => some (pid, { s with replacer := rep })
      | none => none

/-- `BufferPoolManagerInstance::FetchPgImp`.  Returns the frame holding the
page and the updated pool (`none` for `return nullptr`). -/
def fetchPg (pid : Int) (s : Pool) : Option (Int × Pool) :=
  match ptFind s.pageTable pid with
  | some fid =>
      let pg := getPage s fid
      let s := setPage s fid { pg with pinCount := pg.pinCount + 1 }
      let s := { s with replacer := LRUK.recordAccess fid s.replacer }
      match LRUK.setEvictable fid false s.replacer with
      | some rep => some (fid, { s with replacer := rep })
      | none => none
  | none =>
      match obtainFrame s with
      | none => none
      | some (fid, s) =>
          let s := { s with pageTable := ptInsert s.pageTable pid fid }
          let s := setPage s fid
            { pageId := pid, pinCount := 1, isDirty := false, data := readPage pid s }
          let s := { s with replacer := LRUK.recordAccess fid s.replacer }
          match LRUK.setEvictable fid false s.replacer with
          | some rep => some (fid, { s with replacer := rep })
          | none => none

/-- `BufferPoolManagerInstance::UnpinPgImp`.  The pin count is decremented
unconditionally; the dirty flag is OR-accumulated; the frame is made
evictable when the resulting pin count is `≤ 0`. -/
def unpinPg (pid : Int) (isDirty : Bool) (s : Pool) : Option (Bool × Pool) :=
  match ptFind s.pageTable pid with
  | none => some (false, s)
  | some fid =>
      let pg := getPage s fid
      let pg := { pg with pinCount := pg.pinCount - 1,
                          isDirty := pg.isDirty || isDirty }
      let s := setPage s fid pg
      if pg.pinCount ≤ 0 then
        match LRUK.setEvictable fid true s.replacer with
        | some rep => some (true, { s with replacer := rep })
        | none => none
      else some (true, s)

/-- `BufferPoolManagerInstance::FlushPgImp`: a non-resident page id returns
`true` without effect; a resident one has its frame content written to disk
and its dirty bit cleared. -/
def flushPg (pid : Int) (s : Pool) : Bool × Pool :=
  match ptFind s.pageTable pid with
  | none => (true, s)
  | some fid =>
      let pg := getPage s fid
      (true, setPage (writePage pg.pageId pg.data s) fid { pg with isDirty := false })

/-- Loop body of `FlushAllPgsImp`: skip an unused frame
(`page_id_ == INVALID_PAGE_ID`), write any other frame to disk. -/
def flushStep (s : Pool) (i : Nat) : Pool :=
  let pg := getPage s (Int.ofNat i)
  if pg.pageId ≠ -1 then writePage pg.pageId pg.data s else s

/-- `BufferPoolManagerInstance::FlushAllPgsImp`: every frame whose page id is
valid is written to disk, in frame order; no dirty flag is touched. -/
def flushAll (s : Pool) : Pool :=
  (List.range s.poolSize).foldl flushStep s

/-- `BufferPoolManagerInstance::DeletePgImp`: a non-resident page id returns
`true`; a pinned page returns `false`; otherwise the frame is dropped from
the replacer, pushed to the front of the free list and reset — with no disk
write (and, as in the source, no page-table removal). -/
def deletePg (pid : Int) (s : Pool) : Option (Bool × Pool) :=
  match ptFind s.pageTable pid with
  | none => some (true, s)
  | some fid =>
      if 0 < (getPage s fid).pinCount then some (false, s)
      else
        match LRUK.remove fid s.replacer with
        | none => none
        | some rep =>
            let s := { s with replacer := rep, freeList := fid :: s.freeList }
            some (true, setPage s fid BPage.empty)

end BPM

namespace LockMgr

/-- The five lock modes of `LockManager::LockMode`. -/
inductive LockMode
  | IS | IX | S | SIX | X
deriving Repr, DecidableEq, Fintype

open LockMode

/-- Admissible upgrade pairs, transcribed from the negated four-way test of
`LockManager::LockTable` (the same text appears in `LockManager::LockRow`):
the requester aborts with `INCOMPATIBLE_UPGRADE` unless one of these four
patterns holds. -/
def canUpgrade (m1 m2 : LockMode) : Bool :=
  (m1 = IS ∧ (m2 = S ∨ m2 = X ∨ m2 = IX ∨ m2 = SIX)) ∨
  (m1 = S ∧ (m2 = X ∨ m2 = SIX)) ∨
  (m1 = IX ∧ (m2 = X ∨ m2 = SIX)) ∨
  (m1 = SIX ∧ m2 = X)

/-- Possible outcomes of the held-lock branch of `LockTable` / `LockRow`. -/
inductive UpgradeOutcome
  | alreadyHeld
  | abortUpgradeConflict
  | abortIncompatibleUpgrade
  | upgrade
deriving Repr, DecidableEq

/-- Decision taken by `LockTable` (and identically by `LockRow`) when the
requesting transaction already has a request for this resource in the queue
holding mode `held`: an equal mode returns at once; with another upgrade
pending (`upgrading_ != INVALID_TXN_ID`) the requester aborts with
`UPGRADE_CONFLICT`; an inadmissible pair aborts with `INCOMPATIBLE_UPGRADE`;
otherwise the upgrade proceeds. -/
def upgradeOutcome (held requested : LockMode) (upgradePending : Bool) : UpgradeOutcome :=
  if held = requested then .alreadyHeld
  else if upgradePending then .abortUpgradeConflict
  else if canUpgrade held requested then .upgrade
  else .abortIncompatibleUpgrade

/-- The upgrade pairs listed by the claim:
IS→{S,X,IX,SIX}, S→{X,SIX}, IX→{X,SIX}, SIX→X. -/
def claimedUpgradePairs : List (LockMode × LockMode) :=
  [(IS, S), (IS, X), (IS, IX), (IS, SIX),
   (S, X), (S, SIX),
   (IX, X), (IX, SIX),
   (SIX, X)]

end LockMgr

namespace EHT

/-- A hash bucket (class `ExtendibleHashTable::Bucket`): local depth, capacity
(`size_` / `bucket_size_`), and the stored pairs in `list_` order.  Keys are
the hashed integers; `std::hash` on an `int` is the identity here. -/
structure Bucket where
  depth : Nat
  cap : Nat
  items : List (Nat × Int)
deriving Repr, DecidableEq

/-- `Bucket::Find`. -/
def Bucket.find (b : Bucket) (k : Nat) : Option Int :=
  (b.items.find? (fun it => it.1 = k)).map (fun it => it.2)

/-- Modelled from the spec: `Bucket::IsFull` (declared in the missing header)
holds when the bucket already stores its capacity `B` of entries. -/
def Bucket.isFull (b : Bucket) : Bool := b.cap ≤ b.items.length

/-- `Bucket::Insert`: overwrite on duplicate key; fail on a full bucket;
append otherwise. -/
def Bucket.insert (b : Bucket) (k : Nat) (v : Int) : Option Bucket :=
  if b.items.any (fun it => it.1 = k) then
    some { b with items := b.items.map fun it => if it.1 = k then (k, v) else it }
  else if b.isFull then none
  else some { b with items := b.items ++ [(k, v)] }

/-- `Bucket::Remove`. -/
def Bucket.removeKey (b : Bucket) (k : Nat) : Bucket × Bool :=
  if b.items.any (fun it => it.1 = k) then
    ({ b with items := b.items.eraseP (fun it => it.1 = k) }, true)
  else (b, false)

/-- State of `ExtendibleHashTable` (the first variant of the source file, the
one the buffer pool instantiates): global depth, bucket capacity, the bucket
counter, and the directory.  Shared-pointer identity of buckets is modelled
by a bucket id: `store` maps live ids to bucket contents and `dir` holds one
id per directory slot, so aliased slots share one bucket and the pointer
comparison `dir_[i] == target_bucket` is id equality. -/
structure Table where
  globalDepth : Nat
  bucketSize : Nat
  numBuckets : Nat
  store : List (Nat × Bucket)
  nextId : Nat
  dir : List Nat
deriving Repr, DecidableEq

/-- The `ExtendibleHashTable` constructor of the first variant: global depth
0, one empty bucket of depth 0, and a directory with TWO slots (`dir_.resize(2)`)
both pointing at that bucket. -/
def Table.init (bucketSize : Nat) : Table :=
  { globalDepth := 0, bucketSize := bucketSize, numBuckets := 1,
    store := [(0, { depth := 0, cap := bucketSize, items := [] })],
    nextId := 1, dir := [0, 0] }

/-- `IndexOf`: `hash(key) & ((1 << global_depth_) - 1)`. -/
def Table.indexOf (t : Table) (k : Nat) : Nat := k % 2 ^ t.globalDepth

/-- Bucket id stored in a directory slot. -/
def Table.dirBucketId (t : Table) (i : Nat) : Nat := t.dir.getD i 0

/-- Dereference a bucket id. -/
def Table.bucketAt (t : Table) (bid : Nat) : Bucket :=
  ((t.store.find? (fun e => e.1 = bid)).map (fun e => e.2)).getD
    { depth := 0, cap := 0, items := [] }

/-- In-place update of the bucket behind an id. -/
def storeSet (store : List (Nat × Bucket)) (bid : Nat) (b : Bucket) :
    List (Nat × Bucket) :=
  store.map fun e => if e.1 = bid then (bid, b) else e

/-- `ExtendibleHashTable::Find`. -/
def Table.findKey (t : Table) (k : Nat) : Option Int :=
  (t.bucketAt (t.dirBucketId (t.indexOf k))).find k

/-- `ExtendibleHashTable::Remove`. -/
def Table.removeKey (t : Table) (k : Nat) : Table × Bool :=
  let bid := t.dirBucketId (t.indexOf k)
  let r := (t.bucketAt bid).removeKey k
  ({ t with store := storeSet t.store bid r.1 }, r.2)

/-- Refill a fresh bucket with redistributed entries, mirroring the source's
per-item `Insert` calls whose return value is ignored. -/
def fillBucket (cap depth : Nat) (items : List (Nat × Int)) : Bucket :=
  items.foldl (fun b it => (b.insert it.1 it.2).getD b)
    { depth := depth, cap := cap, items := [] }

/-- Directory doubling step of `ExtendibleHashTable::Insert` (taken when the
target bucket's local depth equals the global depth): `global_depth_++` and
the pointer array is doubled by copying it into the new upper half. -/
def doubleDir (t : Table) : Table :=
  { t with globalDepth := t.globalDepth + 1, dir := t.dir ++ t.dir }

/-- Bucket split of `ExtendibleHashTable::Insert`: with `mask = 1 << d` for
the target's local depth `d`, two fresh depth-`d+1` buckets receive the
target's entries split on bit `d` of the hashed key, and every directory slot
that pointed at the target (`dir_[i] == target_bucket`) is retargeted by bit
`d` of the slot index.  The fresh buckets are filled by per-item `Insert`
calls whose return value the source ignores. -/
def splitBucket (t : Table) (bid : Nat) : Table :=
  let b := t.bucketAt bid
  let mask := 2 ^ b.depth
  let zeroId := t.nextId
  let oneId := t.nextId + 1
  let zeroB := fillBucket t.bucketSize (b.depth + 1)
    (b.items.filter (fun it => it.1 / mask % 2 = 0))
  let oneB := fillBucket t.bucketSize (b.depth + 1)
    (b.items.filter (fun it => it.1 / mask % 2 = 1))
  { t with
    numBuckets := t.numBuckets + 1,
    nextId := t.nextId + 2,
    store := (t.store.eraseP (fun e => e.1 = bid)) ++ [(zeroId, zeroB), (oneId, oneB)],
    dir := (List.range t.dir.length).map (fun i =>
      if t.dirBucketId i = bid then (if i / mask % 2 = 1 then oneId else zeroId)
      else t.dirBucketId i) }

/-- One round of the `while` loop of `ExtendibleHashTable::Insert` after the
target bucket rejected the entry: double the directory first when the
target's local depth equals the global depth, then split the target. -/
def splitStep (t : Table) (k : Nat) : Table :=
  let bid := t.dirBucketId (t.indexOf k)
  if (t.bucketAt bid).depth = t.globalDepth then splitBucket (doubleDir t) bid
  else splitBucket t bid

/-- `ExtendibleHashTable::Insert` as a fuelled loop: try the target bucket,
split on failure and retry.  `none` models running out of fuel (the C++ loop
spins as long as splitting keeps failing). -/
def insertLoop : Nat → Table → Nat → Int → Option Table
  | 0, _, _, _ => none
  | fuel + 1, t, k, v =>
      let bid := t.dirBucketId (t.indexOf k)
      match (t.bucketAt bid).insert k v with
      | some b' => some { t with store := storeSet t.store bid b' }
      | none => insertLoop fuel (splitStep t k) k v

/-- Reachable table states: the constructor state, followed by any sequence
of completed inserts and removes (`Find` leaves the state unchanged). -/
inductive Reach (B : Nat) : Table → Prop
  | init : Reach B (Table.init B)
  | insert {t t' : Table} {fuel k : Nat} {v : Int} :
      Reach B t → insertLoop fuel t k v = some t' → Reach B t'
  | remove {t : Table} {k : Nat} :
      Reach B t → Reach B (t.removeKey k).1

/-- Structural invariant of reachable tables: the directory holds
`2^(G+1)` slots (the constructor starts with two slots at global depth 0 and
doubling preserves this); every bucket referenced by the directory has local
depth at most the global depth; bucket ids in the store are distinct, cover
the directory, and are below the id allocator. -/
def Inv (t : Table) : Prop :=
  t.dir.length = 2 ^ (t.globalDepth + 1) ∧
  (∀ bid ∈ t.dir, (t.bucketAt bid).depth ≤ t.globalDepth) ∧
  (t.store.map (fun e => e.1)).Nodup ∧
  (∀ bid ∈ t.dir, bid ∈ t.store.map (fun e => e.1)) ∧
  (∀ sid ∈ t.store.map (fun e => e.1), sid < t.nextId)

end EHT

namespace BPT

/-- A B+tree node page, from `BPlusTreePage` and its two subclasses: a leaf
holds sorted (key, record-id) pairs and the next-leaf page id; an internal
node holds (key, child-page-id) pairs whose slot-0 key is the unused
sentinel.  Both carry the parent page id (`INVALID_PAGE_ID = -1` for the
root) and `max_size_`.  Keys, record ids and page ids are integers. -/
inductive BNode where
  | leaf (parent : Int) (maxSize : Nat) (kvs : List (Int × Int)) (next : Int)
  | inter (parent : Int) (maxSize : Nat) (entries : List (Int × Int))
deriving Repr, DecidableEq

/-- `BPlusTreePage::IsLeafPage`. -/
def BNode.isLeaf : BNode → Bool
  | .leaf .. => true
  | .inter .. => false

/-- `BPlusTreePage::GetSize` (number of stored pairs / children). -/
def BNode.size : BNode → Nat
  | .leaf _ _ kvs _ => kvs.length
  | .inter _ _ es => es.length

/-- `BPlusTreePage::GetParentPageId`. -/
def BNode.parent : BNode → Int
  | .leaf p _ _ _ => p
  | .inter p _ _ => p

/-- `BPlusTreePage::GetMaxSize`. -/
def BNode.maxSize : BNode → Nat
  | .leaf _ m _ _ => m
  | .inter _ m _ => m

/-- `BPlusTreePage::SetParentPageId`. -/
def BNode.setParent (n : BNode) (p : Int) : BNode :=
  match n with
  | .leaf _ m kvs nx => .leaf p m kvs nx
  | .inter _ m es => .inter p m es

/-- `BPlusTreePage::GetMinSize` (from `b_plus_tree_page.cpp`): a root leaf
needs 1 entry and a root internal 2 children; a non-root leaf needs
`(max_size - 1 + 1) / 2 = max_size / 2` entries and a non-root internal
`(max_size - 1) / 2`. -/
def BNode.minSize : BNode → Nat
  | .leaf p m _ _ => if p = -1 then 1 else m / 2
  | .inter p m _ => if p = -1 then 2 else (m - 1) / 2

/-- State of `BPlusTree`: root page id (`INVALID_PAGE_ID = -1` when empty),
the page store, the page-id allocator of the buffer pool, and the two
construction parameters. -/
structure Tree where
  rootPageId : Int
  pages : List (Int × BNode)
  nextPageId : Int
  leafMax : Nat
  internalMax : Nat
deriving Repr, DecidableEq

/-- Empty tree as constructed. -/
def Tree.new (leafMax internalMax : Nat) : Tree :=
  { rootPageId := -1, pages := [], nextPageId := 0,
    leafMax := leafMax, internalMax := internalMax }

/-- Fetch a page. -/
def getNode (t : Tree) (pid : Int) : Option BNode :=
  (t.pages.find? (fun e => e.1 = pid)).map (fun e => e.2)

/-- Overwrite a page in place. -/
def setNode (t : Tree) (pid : Int) (n : BNode) : Tree :=
  { t with pages := t.pages.map (fun e => if e.1 = pid then (pid, n) else e) }

/-- Install a fresh page (`NewPage` followed by `Init`). -/
def putNode (t : Tree) (pid : Int) (n : BNode) : Tree :=
  { t with pages := t.pages ++ [(pid, n)] }

/-- `DeletePage`. -/
def delPage (t : Tree) (pid : Int) : Tree :=
  { t with pages := t.pages.eraseP (fun e => e.1 = pid) }

/-- Modelled from the spec: `BPlusTreeLeafPage::KeyIndex` locates a key in a
leaf by binary search — the index of the first key `≥ key` (the leaf size if
none). -/
def leafKeyIndex (kvs : List (Int × Int)) (key : Int) : Nat :=
  kvs.findIdx (fun kv => key ≤ kv.1)

/-- Modelled from the spec: `BPlusTreeLeafPage::Insert` at a precomputed
index — it rejects a duplicate of the key already sitting at that index
(duplicate-key insert returns "exists" without mutation) and otherwise
inserts the pair there, keeping the keys sorted. -/
def leafInsert (kvs : List (Int × Int)) (key v : Int) : Option (List (Int × Int)) :=
  let idx := leafKeyIndex kvs key
  if (kvs.getD idx (key + 1, 0)).1 = key then none
  else some (kvs.take idx ++ [(key, v)] ++ kvs.drop idx)

/-- Modelled from the spec: `BPlusTreeInternalPage::Lookup` descends to the
child responsible for `key`: the child of the last separator `≤ key`, or
child 0 when `key` is below every separator (slot 0's key is unused). -/
def interLookup (es : List (Int × Int)) (key : Int) : Int :=
  let idx := ((es.drop 1).findIdx (fun e => key < e.1)) + 1
  (es.getD (idx - 1) (0, -1)).2

/-- Modelled from the spec: `BPlusTreeInternalPage::KeyIndex` locates a
separator key among slots `1 …` — the index of the first separator `≥ key`. -/
def interKeyIndex (es : List (Int × Int)) (key : Int) : Nat :=
  ((es.drop 1).findIdx (fun e => key ≤ e.1)) + 1

/-- Modelled from the spec: `BPlusTreeInternalPage::Insert` places a
(separator, child) pair at its sorted position among slots `1 …`. -/
def interInsert (es : List (Int × Int)) (key child : Int) : List (Int × Int) :=
  let idx := ((es.drop 1).findIdx (fun e => key < e.1)) + 1
  es.take idx ++ [(key, child)] ++ es.drop idx

/-- Modelled from the spec: `SetKeyAt`. -/
def setKeyAt (es : List (Int × Int)) (idx : Nat) (key : Int) : List (Int × Int) :=
  es.take idx ++
    (match es.drop idx with
     | [] => []
     | e :: rest => (key, e.2) :: rest)

/-- Modelled from the spec: `GetBotherPage` selects the sibling of child
`pid` under the same parent, preferring the left one, and reports the
separator key between them together with the direction flag `ispre`. -/
def getBotherPage (es : List (Int × Int)) (pid : Int) : Option (Int × Int × Bool) :=
  match es.findIdx? (fun e => e.2 = pid) with
  | none => none
  | some i =>
      if i = 0 then
        match es.getD 1 (0, -1) with
        | (k, c) => some (c, k, false)
      else
        some ((es.getD (i - 1) (0, -1)).2, (es.getD i (0, -1)).1, true)

/-- Reparent the listed children (the buffer-pool walk performed by the
internal `Break` and `Merge` helpers). -/
def reparent (t : Tree) (es : List (Int × Int)) (newParent : Int) : Tree :=
  es.foldl (fun t e =>
    match getNode t e.2 with
    | some n => setNode t e.2 (n.setParent newParent)
    | none => t) t

/-- `BPlusTree::FindLeafPage` (the lock-free variant used by `Insert` and
`Remove`): descend from the root along `InternalPage::Lookup` until a leaf. -/
def findLeafPid (t : Tree) (key : Int) : Nat → Int → Option Int
  | 0, _ => none
  | fuel + 1, pid =>
      match getNode t pid with
      | some (.leaf ..) => some pid
      | some (.inter _ _ es) => findLeafPid t key fuel (interLookup es key)
      | none => none

/-- `BPlusTree::GetValue`: `none` when the tree is empty or navigation
fails; otherwise the result of the point lookup in the target leaf. -/
def lookup (t : Tree) (key : Int) : Option (Option Int) :=
  if t.rootPageId = -1 then some none
  else
    match findLeafPid t key (t.pages.length + 1) t.rootPageId with
    | none => none
    | some pid =>
        match getNode t pid with
        | some (.leaf _ _ kvs _) =>
            some ((kvs.find? (fun kv => kv.1 = key)).map (fun kv => kv.2))
        | _ => none

/-- `BPlusTree::InsertInParent`: insert the separator pushed up by a split.
A parentless node gets a fresh internal root over the two pages; a parent
with room takes the pair directly; a full parent is split (`Break`, modelled
from the spec: the pair is placed in order, the upper half moves to a fresh
right sibling whose children are reparented, and the sibling's slot-0 key is
pushed further up). -/
def insertInParent (t : Tree) : Nat → Int → Int → Int → Option Tree
  | 0, _, _, _ => none
  | fuel + 1, pid, key, botherPid =>
      match getNode t pid with
      | none => none
      | some node =>
          if node.parent = -1 then
            let newRootId := t.nextPageId
            let t := { t with nextPageId := newRootId + 1 }
            let t := putNode t newRootId (.inter (-1) t.internalMax [(0, pid), (key, botherPid)])
            let t :=
              match getNode t pid with
              | some n => setNode t pid (n.setParent newRootId)
              | none => t
            let t :=
              match getNode t botherPid with
              | some n => setNode t botherPid (n.setParent newRootId)
              | none => t
            some { t with rootPageId := newRootId }
          else
            match getNode t node.parent with
            | some (.inter pp pm pes) =>
                let parentId := node.parent
                if pes.length < pm then
                  let t := setNode t parentId (.inter pp pm (interInsert pes key botherPid))
                  let t :=
                    match getNode t botherPid with
                    | some n => setNode t botherPid (n.setParent parentId)
                    | none => t
                  some t
                else
                  let parentBotherId := t.nextPageId
                  let t := { t with nextPageId := parentBotherId + 1 }
                  let combined := interInsert pes key botherPid
                  let keep := (combined.length + 1) / 2
                  let leftEs := combined.take keep
                  let rightEs := combined.drop keep
                  let t := setNode t parentId (.inter pp pm leftEs)
                  let t := putNode t parentBotherId (.inter (-1) pm rightEs)
                  let t := reparent t rightEs parentBotherId
                  let t := reparent t leftEs parentId
                  insertInParent t fuel parentId (rightEs.getD 0 (0, -1)).1 parentBotherId
            | _ => none

/-- `BPlusTree::Insert`: an empty tree first gets a fresh root leaf; the
entry goes into the target leaf (duplicates are rejected); a leaf that has
reached `leaf_max_size` is split (`Break`, modelled from the spec: the leaf
keeps the lower `⌈size/2⌉` pairs, the fresh right sibling takes the rest and
is linked into the leaf chain) and the sibling's first key is pushed up. -/
def insert (t : Tree) (key v : Int) : Option (Bool × Tree) :=
  let t :=
    if t.rootPageId = -1 then
      let pid := t.nextPageId
      { putNode { t with nextPageId := pid + 1 } pid (.leaf (-1) t.leafMax [] (-1))
        with rootPageId := pid }
    else t
  match findLeafPid t key (t.pages.length + 1) t.rootPageId with
  | none => none
  | some pid =>
      match getNode t pid with
      | some (.leaf p m kvs nx) =>
          match leafInsert kvs key v with
          | none => some (false, t)
          | some kvs2 =>
              let t := setNode t pid (.leaf p m kvs2 nx)
              if kvs2.length < t.leafMax then some (true, t)
              else
                let botherPid := t.nextPageId
                let t := { t with nextPageId := botherPid + 1 }
                let keep := (kvs2.length + 1) / 2
                let t := setNode t pid (.leaf p m (kvs2.take keep) botherPid)
                let t := putNode t botherPid (.leaf (-1) t.leafMax (kvs2.drop keep) nx)
                match insertInParent t (t.pages.length + 1) pid
                    ((kvs2.drop keep).getD 0 (0, 0)).1 botherPid with
                | some t2 => some (true, t2)
                | none => none
      | _ => none

/-- `BPlusTree::GetMaxsize` (this file's variant: the full `leaf_max_size_`
for leaves). -/
def getMaxsize (t : Tree) (n : BNode) : Nat :=
  if n.isLeaf then t.leafMax else t.internalMax

/-- Merge arm of `DeleteEntry` (combined size below the maximum): after the
direction swap the left page absorbs the right one.  The source picks the
internal-merge code when the RIGHT node's `IsRootPage()` holds — which a
non-root node never satisfies — and otherwise runs the leaf-merge code
(`LeafPage::Merge` plus the next-pointer splice) on whatever the pages are. -/
def mergeBranch (t : Tree) (pid : Int) (node2 : BNode)
    (botherPid : Int) (botherNode : BNode) (parentId parentKey : Int)
    (ispre : Bool) : Option (Tree × Int × Int) :=
  let leftPid := if ispre then botherPid else pid
  let rightPid := if ispre then pid else botherPid
  let leftNode := if ispre then botherNode else node2
  let rightNode := if ispre then node2 else botherNode
  if rightNode.parent = -1 then
    match leftNode, rightNode with
    | .inter lp lm les, .inter _ _ res =>
        let merged := les ++ [(parentKey, (res.getD 0 (0, -1)).2)] ++ res.drop 1
        let t := setNode t leftPid (.inter lp lm merged)
        let t := reparent t res leftPid
        let t := delPage t rightPid
        some (t, parentId, parentKey)
    | _, _ => none
  else
    match leftNode, rightNode with
    | .leaf lp lm lkvs _, .leaf _ _ rkvs rnx =>
        let t := setNode t leftPid (.leaf lp lm (lkvs ++ rkvs) rnx)
        let t := delPage t rightPid
        some (t, parentId, parentKey)
    | _, _ => none

/-- Redistribute arm of `DeleteEntry` (merging would overflow): one entry is
borrowed through the parent.  The source again dispatches on the SIBLING's
`IsRootPage()` — never true here — where its comments describe the
internal-node case, so the leaf borrowing code runs regardless of the actual
node kind. -/
def redistributeBranch (t : Tree) (pid : Int) (node2 : BNode)
    (botherPid : Int) (botherNode : BNode) (parentId parentKey : Int)
    (ispre : Bool) : Option Tree :=
  if ispre then
    if botherNode.parent = -1 then
      match botherNode, node2 with
      | .inter bp bm bes, .inter np nm nes =>
          let lastE := bes.getD (bes.length - 1) (0, -1)
          let t := setNode t botherPid (.inter bp bm (bes.take (bes.length - 1)))
          let t := setNode t pid (.inter np nm ((0, lastE.2) :: (parentKey, (nes.getD 0 (0, -1)).2) :: nes.drop 1))
          let t :=
            match getNode t lastE.2 with
            | some c => setNode t lastE.2 (c.setParent pid)
            | none => t
          match getNode t parentId with
          | some (.inter pp pm pes) =>
              some (setNode t parentId
                (.inter pp pm (setKeyAt pes (interKeyIndex pes parentKey) lastE.1)))
          | _ => none
      | _, _ => none
    else
      match botherNode, node2 with
      | .leaf bp bm bkvs bnx, .leaf np nm nkvs nnx =>
          let lastKv := bkvs.getD (bkvs.length - 1) (0, 0)
          let t := setNode t botherPid (.leaf bp bm (bkvs.take (bkvs.length - 1)) bnx)
          let t := setNode t pid (.leaf np nm (lastKv :: nkvs) nnx)
          match getNode t parentId with
          | some (.inter pp pm pes) =>
              some (setNode t parentId
                (.inter pp pm (setKeyAt pes (interKeyIndex pes parentKey) lastKv.1)))
          | _ => none
      | _, _ => none
  else
    if botherNode.parent = -1 then
      match botherNode, node2 with
      | .inter bp bm bes, .inter np nm nes =>
          let firstV := (bes.getD 0 (0, -1)).2
          let firstK := (bes.getD 1 (0, -1)).1
          let bes2 := (0, (bes.getD 1 (0, -1)).2) :: bes.drop 2
          let t := setNode t botherPid (.inter bp bm bes2)
          let t := setNode t pid (.inter np nm (interInsert nes parentKey firstV))
          let t :=
            match getNode t firstV with
            | some c => setNode t firstV (c.setParent pid)
            | none => t
          match getNode t parentId with
          | some (.inter pp pm pes) =>
              some (setNode t parentId
                (.inter pp pm (setKeyAt pes (interKeyIndex pes parentKey) firstK)))
          | _ => none
      | _, _ => none
    else
      match botherNode, node2 with
      | .leaf bp bm bkvs bnx, .leaf np nm nkvs nnx =>
          let firstKv := bkvs.getD 0 (0, 0)
          let bkvs2 := bkvs.drop 1
          let t := setNode t botherPid (.leaf bp bm bkvs2 bnx)
          let t := setNode t pid (.leaf np nm (nkvs ++ [firstKv]) nnx)
          match getNode t parentId with
          | some (.inter pp pm pes) =>
              some (setNode t parentId
                (.inter pp pm (setKeyAt pes (interKeyIndex pes parentKey)
                  (bkvs2.getD 0 (0, 0)).1)))
          | _ => none
      | _, _ => none

/-- `BPlusTree::DeleteEntry`.  The source dispatches its root-shrink and its
merge/redistribute branches on `IsRootPage()` (parent id = -1) where its
comments describe the internal-node case; a branch whose `reinterpret_cast`
reads a page against its actual node kind is unrepresentable in the
embedding and yields `none`. -/
def deleteEntry (t : Tree) : Nat → Int → Int → Option Tree
  | 0, _, _ => none
  | fuel + 1, pid, key =>
      match getNode t pid with
      | none => none
      | some node =>
          let deleted : Option BNode :=
            match node with
            | .leaf p m kvs nx =>
                if kvs.any (fun kv => kv.1 = key) then
                  some (.leaf p m (kvs.eraseP (fun kv => kv.1 = key)) nx)
                else none
            | .inter p m es =>
                if (es.drop 1).any (fun e => e.1 = key) then
                  some (.inter p m
                    ((es.take 1) ++ (es.drop 1).eraseP (fun e => e.1 = key)))
                else none
          match deleted with
          | none => some t
          | some node2 =>
              let t := setNode t pid node2
              if t.rootPageId = pid ∧ node2.isLeaf ∧ node2.size = 0 then
                some (delPage { t with rootPageId := -1 } pid)
              else if t.rootPageId = pid ∧ node2.parent = -1 ∧ node2.size = 1 then
                match node2 with
                | .inter _ _ es =>
                    some (delPage { t with rootPageId := (es.getD 0 (0, -1)).2 } pid)
                | .leaf .. => none
              else if t.rootPageId = pid then some t
              else if node2.size < node2.minSize then
                match getNode t node2.parent with
                | some (.inter _ _ pes) =>
                    match getBotherPage pes pid with
                    | none => none
                    | some (botherPid, parentKey, ispre) =>
                        match getNode t botherPid with
                        | none => none
                        | some botherNode =>
                            if botherNode.size + node2.size < getMaxsize t node2 then
                              match mergeBranch t pid node2 botherPid botherNode
                                  node2.parent parentKey ispre with
                              | some (t2, pId, pKey) => deleteEntry t2 fuel pId pKey
                              | none => none
                            else
                              redistributeBranch t pid node2 botherPid botherNode
                                node2.parent parentKey ispre
                | _ => none
              else some t

/-- `BPlusTree::Remove`: no-op on an empty tree; otherwise delete in the
target leaf and rebalance. -/
def remove (t : Tree) (key : Int) : Option Tree :=
  if t.rootPageId = -1 then some t
  else
    match findLeafPid t key (t.pages.length + 1) t.rootPageId with
    | none => none
    | some pid => deleteEntry t (t.pages.length + 1) pid key

/-- A single tree operation of the single-threaded interface. -/
inductive TreeOp where
  | ins (k v : Int)
  | del (k : Int)
deriving Repr, DecidableEq

/-- Run a list of operations on an initially empty tree. -/
def runOps (leafMax internalMax : Nat) (ops : List TreeOp) : Option Tree :=
  ops.foldl
    (fun acc op =>
      match acc, op with
      | some t, .ins k v => (insert t k v).map (fun r => r.2)
      | some t, .del k => remove t k
      | none, _ => none)
    (some (Tree.new leafMax internalMax))

/-- Keys of the root node (separators for an internal root, stored keys for
a leaf root). -/
def rootKeys (t : Tree) : Option (List Int) :=
  match getNode t t.rootPageId with
  | some (.inter _ _ es) => some ((es.drop 1).map (fun e => e.1))
  | some (.leaf _ _ kvs _) => some (kvs.map (fun kv => kv.1))
  | none => none

/-- Key lists of the leaves in leaf-chain order, starting from the leftmost
leaf reached through child 0 pointers. -/
def leafChainFrom (t : Tree) : Nat → Int → Option (List (List Int))
  | 0, _ => none
  | fuel + 1, pid =>
      if pid = -1 then some []
      else
        match getNode t pid with
        | some (.leaf _ _ kvs nx) =>
            (leafChainFrom t fuel nx).map (fun rest => kvs.map (fun kv => kv.1) :: rest)
        | _ => none

/-- Descend to the leftmost leaf. -/
def leftmostLeaf (t : Tree) : Nat → Int → Option Int
  | 0, _ => none
  | fuel + 1, pid =>
      match getNode t pid with
      | some (.leaf ..) => some pid
      | some (.inter _ _ es) => leftmostLeaf t fuel (es.getD 0 (0, -1)).2
      | none => none

/-- All leaves of the tree, in chain order. -/
def leaves (t : Tree) : Option (List (List Int)) :=
  match leftmostLeaf t (t.pages.length + 1) t.rootPageId with
  | some pid => leafChainFrom t (t.pages.length + 1) pid
  | none => none

end BPT

namespace DD

/-- Scratch state of the deadlock detector: the candidate set `txn_set_` and
the wait-for adjacency `waits_for_` (successor lists in `push_back` order).
Modelled from the spec: `txn_set_` is kept sorted and duplicate-free and is
traversed in ascending transaction-id order — the container's declaration is
not in the provided sources. -/
structure Graph where
  txnSet : List Int
  waitsFor : List (Int × List Int)
deriving Repr, DecidableEq

/-- Successor list of a transaction (`waits_for_[u]`, empty when absent). -/
def succs (g : Graph) (u : Int) : List Int :=
  ((g.waitsFor.find? (fun e => e.1 = u)).map (fun e => e.2)).getD []

/-- Ordered duplicate-free insertion (the `txn_set_.insert` calls). -/
def insertSorted (x : Int) : List Int → List Int
  | [] => [x]
  | y :: ys => if x < y then x :: y :: ys else if x = y then y :: ys
               else y :: insertSorted x ys

/-- `LockManager::AddEdge`: both endpoints join `txn_set_` and `t2` is
appended to `waits_for_[t1]`. -/
def addEdge (g : Graph) (t1 t2 : Int) : Graph :=
  { txnSet := insertSorted t2 (insertSorted t1 g.txnSet),
    waitsFor :=
      if g.waitsFor.any (fun e => e.1 = t1) then
        g.waitsFor.map (fun e => if e.1 = t1 then (t1, e.2 ++ [t2]) else e)
      else g.waitsFor ++ [(t1, [t2])] }

/-- `LockManager::RemoveEdge`: drop the first occurrence of `t2` from
`waits_for_[t1]`. -/
def removeEdge (g : Graph) (t1 t2 : Int) : Graph :=
  { g with
    waitsFor := g.waitsFor.map (fun e => if e.1 = t1 then (t1, e.2.erase t2) else e) }

/-- `LockManager::DeleteNode`: erase the node's own adjacency entry, then
remove one incoming edge from every other transaction of `txn_set_`. -/
def deleteNode (g : Graph) (txn : Int) : Graph :=
  let g2 : Graph := { g with waitsFor := g.waitsFor.eraseP (fun e => e.1 = txn) }
  g2.txnSet.foldl (fun gg a => if a ≠ txn then removeEdge gg a txn else gg) g2

/-- Short-circuiting traversal of a successor list: once a back edge has
been reported the remaining neighbours are skipped, otherwise the safe set
is threaded into the next visit. -/
def dfsFold (visit : List Int → Int → Option (List Int) × List Int) :
    List Int → Option (List Int) × List Int → Option (List Int) × List Int
  | [], acc => acc
  | w :: ws, acc =>
      match acc with
      | (some st, s) => dfsFold visit ws (some st, s)
      | (none, s) => dfsFold visit ws (visit s w)

/-- Modelled from the spec: the depth-first search `Dfs` behind `HasCycle` —
the active path `active_set_` is the recursion stack (pushed on entry), a
node finished without finding a back edge joins the memoized `safe_set_`,
and hitting a node already on the active path reports the whole active path.
Neighbours are explored in adjacency order. -/
def dfsVisit (g : Graph) : Nat → List Int → List Int → Int →
    Option (List Int) × List Int
  | 0, safe, _, _ => (none, safe)
  | fuel + 1, safe, active, v =>
      if v ∈ active then (some active, safe)
      else if v ∈ safe then (none, safe)
      else
        match dfsFold (fun s w => dfsVisit g fuel s (v :: active) w)
            (succs g v) (none, safe) with
        | (some st, s2) => (some st, s2)
        | (none, s2) => (none, v :: s2)

/-- Fuel that dominates any full depth-first traversal of the graph. -/
def dfsFuel (g : Graph) : Nat :=
  (g.txnSet.length + g.waitsFor.length +
    (g.waitsFor.map (fun e => e.2.length)).sum + 2) *
  (g.txnSet.length + (g.waitsFor.map (fun e => e.2.length)).sum + 2)

/-- Maximum of a stack (`*txn_id = *active_set_.begin(); … std::max …`). -/
def listMax : List Int → Int
  | [] => -1
  | x :: xs => xs.foldl max x

/-- `LockManager::HasCycle` over the start list: run `Dfs` from each
transaction in order, threading `safe_set_`; on the first back edge report
the maximum of the active path together with the path. -/
def hasCycleAux (g : Graph) : List Int → List Int → Option (Int × List Int) × List Int
  | safe, [] => (none, safe)
  | safe, st :: rest =>
      match dfsVisit g (dfsFuel g) safe [] st with
      | (some stack, safe2) => (some (listMax stack, stack), safe2)
      | (none, safe2) => hasCycleAux g safe2 rest

/-- The victim-abort loop of `RunCycleDetection`:
`while (HasCycle(&txn_id)) { abort txn; DeleteNode(txn); notify }` — the
safe set persists across `HasCycle` calls of one round (it is cleared only
after the loop).  Returns the (victim, active path) pairs in order and the
final graph; `none` when the fuel runs out before `HasCycle` reports no
cycle. -/
def breakCycles (g : Graph) (safe : List Int) : Nat → Option (List (Int × List Int) × Graph)
  | 0 => none
  | fuel + 1 =>
      match hasCycleAux g safe g.txnSet with
      | (none, _) => some ([], g)
      | (some (victim, stack), safe2) =>
          (breakCycles (deleteNode g victim) safe2 fuel).map
            (fun r => ((victim, stack) :: r.1, r.2))

/-- The DFS active path is chained: each entry is a successor of the entry
below it. -/
def chained (g : Graph) (st : List Int) : Prop :=
  List.Chain' (fun a b => a ∈ succs g b) st

/-- A cycle of the wait-for graph, listed against edge direction: each entry
is a successor of the next one and the last entry is a successor of the
head. -/
def isCycle (g : Graph) (c : List Int) : Prop :=
  c ≠ [] ∧ List.Chain' (fun a b => a ∈ succs g b) c ∧
    c.getLastD 0 ∈ succs g (c.headD 0)

/-- What one detection round does, step by step: each reported victim is the
maximum of the DFS active path recorded with it, that path contains a cycle
of the graph current at that step, and the graph then loses the victim's
node. -/
def detectSpec (g : Graph) : List (Int × List Int) → Graph → Prop
  | [], g' => g' = g
  | (v, st) :: rest, g' =>
      v = listMax st ∧ (∃ c, isCycle g c ∧ ∀ x ∈ c, x ∈ st) ∧
      detectSpec (deleteNode g v) rest g'

/-- The wait-for graph of the C8 counterexample: transactions 1, 2, 3, 5
with 1 → 5 → 2 → 3 and the cycle 2 ⇄ 3 (edges built with `AddEdge`). -/
def g0 : Graph :=
  [((1 : Int), (5 : Int)), (5, 2), (2, 3), (3, 2)].foldl
    (fun g p => addEdge g p.1 p.2) { txnSet := [], waitsFor := [] }

end DD

/-! Concrete states used by witnesses and counterexamples. -/

/-- A reachable replacer state used by the C2 witness: `N = 3`, `k = 2`,
after `record_access(0)`, `record_access(1)`, `set_evictable(0, true)`. -/
def c2state : LRUK.Replacer :=
  { k := 2, replacerSize := 3,
    history := [⟨1, [1], false⟩, ⟨0, [0], true⟩], cache := [],
    currentTimestamp := 2, currSize := 2, evictSize := 1 }


/-- Capacity-2, K = 2 replacer after `RecordAccess(5)` — frame id 5 is out of
range for `replacer_size_ = 2`. -/
def c6replacer : LRUK.Replacer := LRUK.recordAccess 5 (LRUK.Replacer.init 2 2)

/-- One-frame pool right after `NewPgImp` allocated page 0 into frame 0. -/
def poolAfterNew : BPM.Pool :=
  ((BPM.newPg (BPM.Pool.init 1 2)).getD (0, BPM.Pool.init 1 2)).2

/-- The same pool after `UnpinPgImp(0, /*is_dirty*/ true)`: frame 0 holds
page 0 with pin count 0, dirty flag set, and is evictable. -/
def poolDirtyUnpinned : BPM.Pool :=
  ((BPM.unpinPg 0 true poolAfterNew).getD (false, poolAfterNew)).2


/-- Insert phase of the C1 scenario: keys 1 … 5 into an empty
`leaf_max = 3`, `internal_max = 3` tree. -/
def c1insOps : List BPT.TreeOp :=
  [.ins 1 1, .ins 2 2, .ins 3 3, .ins 4 4, .ins 5 5]

/-- Full C1 scenario: the five inserts followed by `Remove(3)`. -/
def c1ops : List BPT.TreeOp := c1insOps ++ [.del 3]

/-! ## Supporting lemmas -/

theorem getPage_setPage_self (s : BPM.Pool) (fid : Int) (p : BPM.BPage)
    (h : fid.toNat < s.pages.length) :
    BPM.getPage (BPM.setPage s fid p) fid = p := by
  simp [BPM.getPage, BPM.setPage, List.getD_eq_getElem?_getD, List.getElem?_set_self, h]

theorem writePage_pages (pid : Int) (d : Nat) (s : BPM.Pool) :
    (BPM.writePage pid d s).pages = s.pages := rfl

theorem setEvictable_some (f : Int) (b : Bool) (r : LRUK.Replacer)
    (h0 : 0 ≤ f) (hN : f < (r.replacerSize : Int)) :
    ∃ r', LRUK.setEvictable f b r = some r' := by
  unfold LRUK.setEvictable
  rw [if_neg (by omega)]
  cases LRUK.findNode r.history f with
  | some n => exact ⟨_, rfl⟩
  | none =>
      cases LRUK.findNode r.cache f with
      | some n => exact ⟨_, rfl⟩
      | none => exact ⟨_, rfl⟩

theorem getPage_ext {s t : BPM.Pool} (h : s.pages = t.pages) (j : Int) :
    BPM.getPage s j = BPM.getPage t j := by
  unfold BPM.getPage
  rw [h]

theorem flushStep_pages (t : BPM.Pool) (i : Nat) :
    (BPM.flushStep t i).pages = t.pages := by
  unfold BPM.flushStep BPM.writePage
  by_cases hc : (BPM.getPage t (Int.ofNat i)).pageId ≠ -1
  · rw [if_pos hc]
  · rw [if_neg hc]

theorem flushStep_diskWrites (t : BPM.Pool) (i : Nat) :
    (BPM.flushStep t i).diskWrites = t.diskWrites ++
      (if (BPM.getPage t (Int.ofNat i)).pageId ≠ -1
       then [((BPM.getPage t (Int.ofNat i)).pageId, (BPM.getPage t (Int.ofNat i)).data)]
       else []) := by
  unfold BPM.flushStep BPM.writePage
  by_cases hc : (BPM.getPage t (Int.ofNat i)).pageId ≠ -1
  · rw [if_pos hc, if_pos hc]
  · rw [if_neg hc, if_neg hc]
    simp

theorem flushFold_spec (l : List Nat) (t : BPM.Pool) :
    (l.foldl BPM.flushStep t).pages = t.pages ∧
    (l.foldl BPM.flushStep t).diskWrites = t.diskWrites ++
      (l.map (fun i =>
        if (BPM.getPage t (Int.ofNat i)).pageId ≠ -1
        then [((BPM.getPage t (Int.ofNat i)).pageId, (BPM.getPage t (Int.ofNat i)).data)]
        else [])).flatten := by
  induction l generalizing t with
  | nil => simp
  | cons i l ih =>
      obtain ⟨hp, hd⟩ := ih (BPM.flushStep t i)
      have hgp : ∀ j : Int, BPM.getPage (BPM.flushStep t i) j = BPM.getPage t j :=
        fun j => getPage_ext (flushStep_pages t i) j
      constructor
      · rw [List.foldl_cons, hp, flushStep_pages]
      · rw [List.foldl_cons, hd, flushStep_diskWrites]
        have hmap :
            (l.map (fun j =>
              if (BPM.getPage (BPM.flushStep t i) (Int.ofNat j)).pageId ≠ -1
              then [((BPM.getPage (BPM.flushStep t i) (Int.ofNat j)).pageId,
                     (BPM.getPage (BPM.flushStep t i) (Int.ofNat j)).data)]
              else [])) =
            (l.map (fun j =>
              if (BPM.getPage t (Int.ofNat j)).pageId ≠ -1
              then [((BPM.getPage t (Int.ofNat j)).pageId,
                     (BPM.getPage t (Int.ofNat j)).data)]
              else [])) := by
          apply List.map_congr_left
          intro j _
          rw [hgp]
        rw [hmap]
        simp [List.append_assoc]

theorem obtainFrame_evict_dirty (s : BPM.Pool) (fid : Int) (rp : LRUK.Replacer)
    (hs : s.freeList = []) (hev : LRUK.evict s.replacer = (some fid, rp))
    (hd : (BPM.getPage s fid).isDirty = true) :
    ∃ s2, BPM.obtainFrame s = some (fid, s2) ∧
      s2.diskWrites = s.diskWrites ++
        [((BPM.getPage s fid).pageId, (BPM.getPage s fid).data)] := by
  unfold BPM.obtainFrame
  rw [if_neg (by rw [hs]; simp)]
  rw [hev]
  have hgp : BPM.getPage { s with replacer := rp } fid = BPM.getPage s fid := rfl
  dsimp only
  rw [hgp, if_pos hd]
  exact ⟨_, rfl, rfl⟩

/-! ## C7 — lock upgrade rules -/

/-- C7: a transaction already holding mode `m1` on a table or row and
requesting a different mode `m2` is treated as an upgrade; with no upgrade
pending on the queue it proceeds exactly when `m1 → m2` is one of
IS→{S,X,IX,SIX}, S→{X,SIX}, IX→{X,SIX}, SIX→X and aborts with an
incompatible-upgrade error otherwise; with another upgrade already pending it
aborts with an upgrade-conflict error. -/
theorem C7_upgrade_rules (m1 m2 : LockMgr.LockMode) (p : Bool) (hne : m1 ≠ m2) :
    (LockMgr.upgradeOutcome m1 m2 p = .upgrade ↔
      (p = false ∧ (m1, m2) ∈ LockMgr.claimedUpgradePairs)) ∧
    (LockMgr.upgradeOutcome m1 m2 p = .abortIncompatibleUpgrade ↔
      (p = false ∧ (m1, m2) ∉ LockMgr.claimedUpgradePairs)) ∧
    (p = true → LockMgr.upgradeOutcome m1 m2 p = .abortUpgradeConflict) := by
  revert hne
  revert m1 m2 p
  decide

/-- Witness for C7 at the concrete input `m1 = IS`, `m2 = S`, no pending
upgrade. -/
theorem C7_upgrade_rules_witness :
    (LockMgr.upgradeOutcome .IS .S false = .upgrade ↔
      (false = false ∧ ((LockMgr.LockMode.IS, LockMgr.LockMode.S))
        ∈ LockMgr.claimedUpgradePairs)) ∧
    (LockMgr.upgradeOutcome .IS .S false = .abortIncompatibleUpgrade ↔
      (false = false ∧ ((LockMgr.LockMode.IS, LockMgr.LockMode.S))
        ∉ LockMgr.claimedUpgradePairs)) ∧
    (false = true → LockMgr.upgradeOutcome .IS .S false = .abortUpgradeConflict) :=
  C7_upgrade_rules .IS .S false (by decide)

/-! ## C6 — replacer error handling -/

/-- C6 counterexample: with capacity `N = 2`, `RecordAccess(5)` does not fail
with an out-of-range error as the claim demands for every frame id `≥ N` — it
tracks frame 5 as an ordinary history node; only `SetEvictable` rejects the
id (its `assert`, modelled as `none`). -/
theorem C6_counterexample :
    c6replacer.history.map LRUK.RNode.frameId = [5] ∧
    LRUK.setEvictable 5 true c6replacer = none := by decide

/-- C6 amended: only `SetEvictable` enforces the frame-id range check (its two
`assert`s fail on `f < 0` or `f ≥ N`); `RecordAccess` performs no range check
and tracks any untracked frame id normally while capacity remains;
`Remove` performs no range check either — it is a no-op on an untracked frame
and fails (aborts) on a tracked non-evictable frame. -/
theorem C6_amended (r : LRUK.Replacer) (f : Int) (b : Bool)
    (hout : (r.replacerSize : Int) ≤ f ∨ f < 0) :
    LRUK.setEvictable f b r = none ∧
    (LRUK.findNode r.history f = none → LRUK.findNode r.cache f = none →
      LRUK.remove f r = some r) ∧
    (∀ n, LRUK.findNode r.history f = some n → n.evictable = false →
      LRUK.remove f r = none) ∧
    (∀ n, LRUK.findNode r.history f = none → LRUK.findNode r.cache f = some n →
      n.evictable = false → LRUK.remove f r = none) ∧
    (r.currSize < r.replacerSize → LRUK.findNode r.history f = none →
      LRUK.findNode r.cache f = none →
      ((LRUK.recordAccess f r).history ++ (LRUK.recordAccess f r).cache).any
        (fun n => n.frameId = f) = true) := by
  refine ⟨?_, ?_, ?_, ?_, ?_⟩
  · unfold LRUK.setEvictable
    rw [if_pos (by omega)]
  · intro h1 h2
    unfold LRUK.remove
    rw [h1, h2]
  · intro n h1 hev
    unfold LRUK.remove
    rw [h1]
    simp [hev]
  · intro n h1 h2 hev
    unfold LRUK.remove
    rw [h1, h2]
    simp [hev]
  · intro hsz h1 h2
    unfold LRUK.recordAccess
    rw [h1, h2, if_pos hsz]
    unfold LRUK.insertFresh
    by_cases hk : 1 < r.k
    · simp [hk]
    · simp [hk]

/-- Witness for C6 at the concrete input: frame id 5 against the capacity-2
replacer `c6replacer` (which tracks frame 5 and nothing else). -/
theorem C6_amended_witness :
    LRUK.setEvictable 5 true c6replacer = none ∧
    (LRUK.findNode c6replacer.history 5 = none → LRUK.findNode c6replacer.cache 5 = none →
      LRUK.remove 5 c6replacer = some c6replacer) ∧
    (∀ n, LRUK.findNode c6replacer.history 5 = some n → n.evictable = false →
      LRUK.remove 5 c6replacer = none) ∧
    (∀ n, LRUK.findNode c6replacer.history 5 = none →
      LRUK.findNode c6replacer.cache 5 = some n →
      n.evictable = false → LRUK.remove 5 c6replacer = none) ∧
    (c6replacer.currSize < c6replacer.replacerSize →
      LRUK.findNode c6replacer.history 5 = none →
      LRUK.findNode c6replacer.cache 5 = none →
      ((LRUK.recordAccess 5 c6replacer).history ++
        (LRUK.recordAccess 5 c6replacer).cache).any (fun n => n.frameId = 5) = true) :=
  C6_amended c6replacer 5 true (by decide)

/-! ## C10 — unconditional unpin decrement -/

/-- C10: for a resident page id, `UnpinPgImp` returns `true` and decrements
the frame's pin count unconditionally — with no guard against a pin count
that is already zero, so the count can go negative — OR-accumulates the dirty
flag, and makes the frame evictable in the replacer exactly when the
resulting pin count is `≤ 0` (so surplus unpins by one caller can free a
frame under another caller's pin). -/
theorem C10_unpin_unconditional (s : BPM.Pool) (pid fid : Int) (d : Bool)
    (hfind : BPM.ptFind s.pageTable pid = some fid)
    (h0 : 0 ≤ fid) (hN : fid < (s.poolSize : Int)) (hlen : s.pages.length = s.poolSize)
    (hRN : s.replacer.replacerSize = s.poolSize) :
    ∃ s', BPM.unpinPg pid d s = some (true, s') ∧
      (BPM.getPage s' fid).pinCount = (BPM.getPage s fid).pinCount - 1 ∧
      (BPM.getPage s' fid).isDirty = ((BPM.getPage s fid).isDirty || d) ∧
      ((BPM.getPage s fid).pinCount - 1 ≤ 0 →
        LRUK.setEvictable fid true s.replacer = some s'.replacer) ∧
      (0 < (BPM.getPage s fid).pinCount - 1 → s'.replacer = s.replacer) := by
  have hlt : fid.toNat < s.pages.length := by omega
  by_cases hpin : (BPM.getPage s fid).pinCount - 1 ≤ 0
  · obtain ⟨r', hr'⟩ := setEvictable_some fid true s.replacer h0 (by omega)
    refine ⟨{ BPM.setPage s fid
        { BPM.getPage s fid with
          pinCount := (BPM.getPage s fid).pinCount - 1,
          isDirty := (BPM.getPage s fid).isDirty || d } with replacer := r' },
      ?_, ?_, ?_, ?_, ?_⟩
    · unfold BPM.unpinPg
      rw [hfind]
      dsimp only [BPM.setPage]
      rw [if_pos hpin, hr']
    · simp [BPM.getPage, BPM.setPage, List.getD_eq_getElem?_getD,
        List.getElem?_set_self, hlt]
    · simp [BPM.getPage, BPM.setPage, List.getD_eq_getElem?_getD,
        List.getElem?_set_self, hlt]
    · intro _
      exact hr'
    · intro h
      omega
  · refine ⟨BPM.setPage s fid
        { BPM.getPage s fid with
          pinCount := (BPM.getPage s fid).pinCount - 1,
          isDirty := (BPM.getPage s fid).isDirty || d },
      ?_, ?_, ?_, ?_, ?_⟩
    · unfold BPM.unpinPg
      rw [hfind]
      dsimp only [BPM.setPage]
      rw [if_neg hpin]
    · simp [BPM.getPage, BPM.setPage, List.getD_eq_getElem?_getD,
        List.getElem?_set_self, hlt]
    · simp [BPM.getPage, BPM.setPage, List.getD_eq_getElem?_getD,
        List.getElem?_set_self, hlt]
    · intro h
      omega
    · intro _
      rfl

/-- Witness for C10 at a concrete input: `poolDirtyUnpinned` holds page 0 in
frame 0 with pin count already 0, and unpinning again drives it to −1. -/
theorem C10_unpin_unconditional_witness :
    (BPM.getPage poolDirtyUnpinned 0).pinCount = 0 ∧
    (∃ s', BPM.unpinPg 0 false poolDirtyUnpinned = some (true, s') ∧
      (BPM.getPage s' 0).pinCount = (BPM.getPage poolDirtyUnpinned 0).pinCount - 1 ∧
      (BPM.getPage s' 0).isDirty = ((BPM.getPage poolDirtyUnpinned 0).isDirty || false) ∧
      ((BPM.getPage poolDirtyUnpinned 0).pinCount - 1 ≤ 0 →
        LRUK.setEvictable 0 true poolDirtyUnpinned.replacer = some s'.replacer) ∧
      (0 < (BPM.getPage poolDirtyUnpinned 0).pinCount - 1 →
        s'.replacer = poolDirtyUnpinned.replacer)) :=
  ⟨by decide,
   C10_unpin_unconditional poolDirtyUnpinned 0 0 false (by decide) (by decide)
     (by decide) (by decide) (by decide)⟩

/-! ## C3 — dirty data on frame repurposing and removal -/

/-- C3 counterexample: starting from a one-frame pool, `NewPgImp` allocates
page 0 (dirty) and `UnpinPgImp(0, true)` releases it; `DeletePgImp(0)` then
succeeds on the dirty frame while the disk write log stays empty — no disk
write preceded the removal of a dirty frame, contradicting the claim. -/
theorem C3_counterexample :
    (BPM.getPage poolDirtyUnpinned 0).isDirty = true ∧
    (BPM.deletePg 0 poolDirtyUnpinned).map (fun t => (t.1, t.2.diskWrites))
      = some (true, []) ∧
    poolDirtyUnpinned.diskWrites = [] := by decide

/-- C3 amended: eviction of a dirty victim frame inside `NewPgImp` or
`FetchPgImp` writes the victim's data to disk before the frame is repurposed,
but a successful `DeletePgImp` discards the frame — dirty or not — without
any disk write. -/
theorem C3_amended (s t u : BPM.Pool) (pid qid : Int) (fid1 fid2 : Int)
    (rp1 rp2 : LRUK.Replacer)
    (hs : s.freeList = []) (hev1 : LRUK.evict s.replacer = (some fid1, rp1))
    (hd1 : (BPM.getPage s fid1).isDirty = true)
    (ht : t.freeList = []) (hres : BPM.ptFind t.pageTable pid = none)
    (hev2 : LRUK.evict t.replacer = (some fid2, rp2))
    (hd2 : (BPM.getPage t fid2).isDirty = true) :
    (∀ p' s', BPM.newPg s = some (p', s') →
      s'.diskWrites = s.diskWrites ++
        [((BPM.getPage s fid1).pageId, (BPM.getPage s fid1).data)]) ∧
    (∀ f' t', BPM.fetchPg pid t = some (f', t') →
      t'.diskWrites = t.diskWrites ++
        [((BPM.getPage t fid2).pageId, (BPM.getPage t fid2).data)]) ∧
    (∀ b u', BPM.deletePg qid u = some (b, u') → u'.diskWrites = u.diskWrites) := by
  refine ⟨?_, ?_, ?_⟩
  · intro p' s' h
    obtain ⟨s2, ho, hw⟩ := obtainFrame_evict_dirty s fid1 rp1 hs hev1 hd1
    unfold BPM.newPg at h
    rw [ho] at h
    dsimp only at h
    split at h
    · cases h
      exact hw
    · cases h
  · intro f' t' h
    obtain ⟨t2, ho, hw⟩ := obtainFrame_evict_dirty t fid2 rp2 ht hev2 hd2
    unfold BPM.fetchPg at h
    rw [hres, ho] at h
    dsimp only at h
    split at h
    · cases h
      exact hw
    · cases h
  · intro b u' h
    unfold BPM.deletePg at h
    cases hf : BPM.ptFind u.pageTable qid with
    | none =>
        rw [hf] at h
        cases h
        rfl
    | some fid =>
        rw [hf] at h
        dsimp only at h
        by_cases hpin : 0 < (BPM.getPage u fid).pinCount
        · rw [if_pos hpin] at h
          cases h
          rfl
        · rw [if_neg hpin] at h
          split at h
          · cases h
          · cases h
            rfl

/-- Witness for C3 amended at the concrete one-frame pool `poolDirtyUnpinned`
(frame 0 dirty, evictable, free list empty): page id 7 is not resident, and
deleting page 0 succeeds. -/
theorem C3_amended_witness :
    (∀ p' s', BPM.newPg poolDirtyUnpinned = some (p', s') →
      s'.diskWrites = poolDirtyUnpinned.diskWrites ++
        [((BPM.getPage poolDirtyUnpinned 0).pageId,
          (BPM.getPage poolDirtyUnpinned 0).data)]) ∧
    (∀ f' t', BPM.fetchPg 7 poolDirtyUnpinned = some (f', t') →
      t'.diskWrites = poolDirtyUnpinned.diskWrites ++
        [((BPM.getPage poolDirtyUnpinned 0).pageId,
          (BPM.getPage poolDirtyUnpinned 0).data)]) ∧
    (∀ b u', BPM.deletePg 0 poolDirtyUnpinned = some (b, u') →
      u'.diskWrites = poolDirtyUnpinned.diskWrites) :=
  C3_amended poolDirtyUnpinned poolDirtyUnpinned poolDirtyUnpinned 7 0 0 0
    (LRUK.evict poolDirtyUnpinned.replacer).2 (LRUK.evict poolDirtyUnpinned.replacer).2
    (by decide) (by decide) (by decide) (by decide) (by decide) (by decide) (by decide)

/-! ## C4 — flush behaviour -/

/-- C4 counterexample: page 0 is resident and dirty in `poolDirtyUnpinned`;
after `FlushAllPgsImp` its data has been written but the frame is still
marked dirty, contradicting the claim that no resident frame is dirty after
`flush_all()`. -/
theorem C4_counterexample :
    (BPM.getPage poolDirtyUnpinned 0).isDirty = true ∧
    BPM.ptFind (BPM.flushAll poolDirtyUnpinned).pageTable 0 = some 0 ∧
    (BPM.flushAll poolDirtyUnpinned).diskWrites = [(0, 0)] ∧
    (BPM.getPage (BPM.flushAll poolDirtyUnpinned) 0).isDirty = true := by decide

/-- C4 amended: for a resident page id, `FlushPgImp` writes the frame's data
to disk, clears the frame's dirty flag and returns `true`; `FlushAllPgsImp`
writes every resident frame's data to disk, in frame order, but leaves the
frame array — including every dirty flag — unchanged. -/
theorem C4_amended (s t : BPM.Pool) (pid fid : Int)
    (hfind : BPM.ptFind s.pageTable pid = some fid)
    (h0 : 0 ≤ fid) (hN : fid < (s.poolSize : Int)) (hlen : s.pages.length = s.poolSize) :
    (BPM.flushPg pid s).1 = true ∧
    ((BPM.flushPg pid s).2).diskWrites
      = s.diskWrites ++ [((BPM.getPage s fid).pageId, (BPM.getPage s fid).data)] ∧
    (BPM.getPage (BPM.flushPg pid s).2 fid).isDirty = false ∧
    (BPM.flushAll t).pages = t.pages ∧
    (BPM.flushAll t).diskWrites = t.diskWrites ++
      ((List.range t.poolSize).map (fun i =>
        if (BPM.getPage t (Int.ofNat i)).pageId ≠ -1
        then [((BPM.getPage t (Int.ofNat i)).pageId, (BPM.getPage t (Int.ofNat i)).data)]
        else [])).flatten := by
  have hlt : fid.toNat < s.pages.length := by omega
  refine ⟨?_, ?_, ?_, (flushFold_spec _ t).1, (flushFold_spec _ t).2⟩
  · unfold BPM.flushPg
    rw [hfind]
  · unfold BPM.flushPg
    rw [hfind]
    rfl
  · unfold BPM.flushPg
    rw [hfind]
    dsimp only
    simp [BPM.getPage, BPM.setPage, BPM.writePage, List.getD_eq_getElem?_getD,
      List.getElem?_set_self, hlt]

/-- Witness for C4 amended at the concrete pool `poolDirtyUnpinned` (page 0
resident and dirty in frame 0). -/
theorem C4_amended_witness :
    (BPM.flushPg 0 poolDirtyUnpinned).1 = true ∧
    ((BPM.flushPg 0 poolDirtyUnpinned).2).diskWrites
      = poolDirtyUnpinned.diskWrites ++
        [((BPM.getPage poolDirtyUnpinned 0).pageId,
          (BPM.getPage poolDirtyUnpinned 0).data)] ∧
    (BPM.getPage (BPM.flushPg 0 poolDirtyUnpinned).2 0).isDirty = false ∧
    (BPM.flushAll poolDirtyUnpinned).pages = poolDirtyUnpinned.pages ∧
    (BPM.flushAll poolDirtyUnpinned).diskWrites = poolDirtyUnpinned.diskWrites ++
      ((List.range poolDirtyUnpinned.poolSize).map (fun i =>
        if (BPM.getPage poolDirtyUnpinned (Int.ofNat i)).pageId ≠ -1
        then [((BPM.getPage poolDirtyUnpinned (Int.ofNat i)).pageId,
               (BPM.getPage poolDirtyUnpinned (Int.ofNat i)).data)]
        else [])).flatten :=
  C4_amended poolDirtyUnpinned poolDirtyUnpinned 0 0
    (by decide) (by decide) (by decide) (by decide)

/-! ## C9 — extendible hash directory invariants -/

theorem fillBucket_depth (cap d : Nat) (items : List (Nat × Int)) :
    (EHT.fillBucket cap d items).depth = d := by
  suffices h : ∀ (l : List (Nat × Int)) (b : EHT.Bucket),
      (l.foldl (fun b it => (b.insert it.1 it.2).getD b) b).depth = b.depth by
    exact h items _
  intro l
  induction l with
  | nil => intro b; rfl
  | cons it l ih =>
      intro b
      rw [List.foldl_cons, ih]
      unfold EHT.Bucket.insert
      by_cases h1 : b.items.any (fun e => e.1 = it.1)
      · rw [if_pos h1]
        rfl
      · rw [if_neg h1]
        by_cases h2 : b.isFull = true
        · rw [if_pos h2]
          rfl
        · rw [if_neg h2]
          rfl


theorem keys_storeSet (store : List (Nat × EHT.Bucket)) (bid : Nat) (b : EHT.Bucket) :
    (EHT.storeSet store bid b).map (fun e => e.1) = store.map (fun e => e.1) := by
  induction store with
  | nil => rfl
  | cons e l ih =>
      by_cases he : e.1 = bid
      · simp only [EHT.storeSet, List.map_cons] at ih ⊢
        rw [if_pos he, ih, he]
      · simp only [EHT.storeSet, List.map_cons] at ih ⊢
        rw [if_neg he, ih]

theorem find?_storeSet_self (store : List (Nat × EHT.Bucket)) (bid : Nat) (b : EHT.Bucket)
    (h : bid ∈ store.map (fun e => e.1)) :
    (EHT.storeSet store bid b).find? (fun e => e.1 = bid) = some (bid, b) := by
  induction store with
  | nil => simp at h
  | cons e l ih =>
      by_cases he : e.1 = bid
      · simp only [EHT.storeSet, List.map_cons]
        rw [if_pos he]
        exact List.find?_cons_of_pos _ (by simp)
      · simp only [EHT.storeSet, List.map_cons]
        rw [if_neg he]
        rw [List.find?_cons_of_neg _ (by simp [he])]
        apply ih
        simp only [List.map_cons, List.mem_cons] at h
        rcases h with h | h
        · exact absurd h.symm he
        · exact h

theorem find?_storeSet_ne (store : List (Nat × EHT.Bucket)) (bid c : Nat) (b : EHT.Bucket)
    (hne : c ≠ bid) :
    (EHT.storeSet store bid b).find? (fun e => e.1 = c) =
      store.find? (fun e => e.1 = c) := by
  induction store with
  | nil => rfl
  | cons e l ih =>
      by_cases he : e.1 = bid
      · simp only [EHT.storeSet, List.map_cons]
        rw [if_pos he]
        rw [List.find?_cons_of_neg _ (by simp; omega),
            List.find?_cons_of_neg _ (by simp [he]; omega)]
        exact ih
      · simp only [EHT.storeSet, List.map_cons]
        rw [if_neg he]
        by_cases hc : e.1 = c
        · rw [List.find?_cons_of_pos _ (by simp [hc]), List.find?_cons_of_pos _ (by simp [hc])]
        · rw [List.find?_cons_of_neg _ (by simp [hc]), List.find?_cons_of_neg _ (by simp [hc])]
          exact ih

theorem keys_eraseP (l : List (Nat × EHT.Bucket)) (bid : Nat) :
    (l.eraseP (fun e => e.1 = bid)).map (fun e => e.1) =
      (l.map (fun e => e.1)).eraseP (fun x => x = bid) := by
  induction l with
  | nil => rfl
  | cons e l ih =>
      by_cases he : e.1 = bid
      · rw [List.eraseP_cons_of_pos (by simp [he])]
        simp only [List.map_cons]
        rw [List.eraseP_cons_of_pos (by simp [he])]
      · rw [List.eraseP_cons_of_neg (by simp [he])]
        simp only [List.map_cons]
        rw [List.eraseP_cons_of_neg (by simp [he]), ih]

theorem find?_eraseP_ne (l : List (Nat × EHT.Bucket)) (bid c : Nat) (hne : c ≠ bid) :
    (l.eraseP (fun e => e.1 = bid)).find? (fun e => e.1 = c) =
      l.find? (fun e => e.1 = c) := by
  induction l with
  | nil => rfl
  | cons e l ih =>
      by_cases he : e.1 = bid
      · rw [List.eraseP_cons_of_pos (by simp [he])]
        rw [List.find?_cons_of_neg _ (by simp [he]; omega)]
      · rw [List.eraseP_cons_of_neg (by simp [he])]
        by_cases hc : e.1 = c
        · rw [List.find?_cons_of_pos _ (by simp [hc]), List.find?_cons_of_pos _ (by simp [hc])]
        · rw [List.find?_cons_of_neg _ (by simp [hc]), List.find?_cons_of_neg _ (by simp [hc])]
          exact ih

theorem getD_mem {l : List Nat} {i : Nat} (h : i < l.length) : l.getD i 0 ∈ l := by
  rw [List.getD_eq_getElem?_getD, List.getElem?_eq_getElem h]
  exact List.getElem_mem h

theorem dirBucketId_mem (t : EHT.Table) (i : Nat) (h : i < t.dir.length) :
    t.dirBucketId i ∈ t.dir := getD_mem h

theorem inv_init (B : Nat) : EHT.Inv (EHT.Table.init B) := by
  refine ⟨rfl, ?_, ?_, ?_, ?_⟩
  · intro bid hb
    simp only [EHT.Table.init, List.mem_cons, List.not_mem_nil, or_false] at hb
    rcases hb with h | h <;> subst h <;> simp [EHT.Table.bucketAt, EHT.Table.init]
  · simp [EHT.Table.init]
  · intro bid hb
    simp only [EHT.Table.init, List.mem_cons, List.not_mem_nil, or_false] at hb
    rcases hb with h | h <;> subst h <;> simp [EHT.Table.init]
  · intro sid hs
    simp only [EHT.Table.init, List.map_cons, List.map_nil, List.mem_cons,
      List.not_mem_nil, or_false] at hs
    subst hs
    exact Nat.zero_lt_one

theorem bucketAt_storeSet_self (t : EHT.Table) (bid : Nat) (b : EHT.Bucket)
    (h : bid ∈ t.store.map (fun e => e.1)) :
    EHT.Table.bucketAt { t with store := EHT.storeSet t.store bid b } bid = b := by
  unfold EHT.Table.bucketAt
  rw [show ({ t with store := EHT.storeSet t.store bid b } : EHT.Table).store
      = EHT.storeSet t.store bid b from rfl]
  rw [find?_storeSet_self t.store bid b h]
  rfl

theorem bucketAt_storeSet_ne (t : EHT.Table) (bid c : Nat) (b : EHT.Bucket)
    (hne : c ≠ bid) :
    EHT.Table.bucketAt { t with store := EHT.storeSet t.store bid b } c =
      EHT.Table.bucketAt t c := by
  unfold EHT.Table.bucketAt
  rw [show ({ t with store := EHT.storeSet t.store bid b } : EHT.Table).store
      = EHT.storeSet t.store bid b from rfl]
  rw [find?_storeSet_ne t.store bid c b hne]

theorem inv_storeSet (t : EHT.Table) (bid : Nat) (b : EHT.Bucket)
    (hI : EHT.Inv t) (hd : b.depth = (t.bucketAt bid).depth) :
    EHT.Inv { t with store := EHT.storeSet t.store bid b } := by
  obtain ⟨h1, h2, h3, h4, h5⟩ := hI
  refine ⟨h1, ?_, ?_, ?_, ?_⟩
  · intro bid2 hb2
    by_cases he : bid2 = bid
    · subst he
      rw [bucketAt_storeSet_self t bid2 b (h4 _ hb2), hd]
      exact h2 _ hb2
    · rw [bucketAt_storeSet_ne t bid bid2 b he]
      exact h2 _ hb2
  · rw [show ({ t with store := EHT.storeSet t.store bid b } : EHT.Table).store
        = EHT.storeSet t.store bid b from rfl, keys_storeSet]
    exact h3
  · intro bid2 hb2
    rw [show ({ t with store := EHT.storeSet t.store bid b } : EHT.Table).store
        = EHT.storeSet t.store bid b from rfl, keys_storeSet]
    exact h4 _ hb2
  · intro sid hs
    rw [show ({ t with store := EHT.storeSet t.store bid b } : EHT.Table).store
        = EHT.storeSet t.store bid b from rfl, keys_storeSet] at hs
    exact h5 _ hs

theorem bucketInsert_depth {b b' : EHT.Bucket} {k : Nat} {v : Int}
    (h : b.insert k v = some b') : b'.depth = b.depth := by
  unfold EHT.Bucket.insert at h
  by_cases h1 : b.items.any (fun e => e.1 = k)
  · rw [if_pos h1] at h
    cases h
    rfl
  · rw [if_neg h1] at h
    by_cases h2 : b.isFull = true
    · rw [if_pos h2] at h
      cases h
    · rw [if_neg h2] at h
      cases h
      rfl

theorem splitBucket_store (t : EHT.Table) (bid : Nat) :
    (EHT.splitBucket t bid).store =
      (t.store.eraseP (fun e => e.1 = bid)) ++
        [(t.nextId, EHT.fillBucket t.bucketSize ((t.bucketAt bid).depth + 1)
            ((t.bucketAt bid).items.filter
              (fun it => it.1 / 2 ^ (t.bucketAt bid).depth % 2 = 0))),
         (t.nextId + 1, EHT.fillBucket t.bucketSize ((t.bucketAt bid).depth + 1)
            ((t.bucketAt bid).items.filter
              (fun it => it.1 / 2 ^ (t.bucketAt bid).depth % 2 = 1)))] := rfl

theorem splitBucket_dir (t : EHT.Table) (bid : Nat) :
    (EHT.splitBucket t bid).dir =
      (List.range t.dir.length).map (fun i =>
        if t.dirBucketId i = bid
        then (if i / 2 ^ (t.bucketAt bid).depth % 2 = 1 then t.nextId + 1 else t.nextId)
        else t.dirBucketId i) := rfl

theorem splitBucket_globalDepth (t : EHT.Table) (bid : Nat) :
    (EHT.splitBucket t bid).globalDepth = t.globalDepth := rfl

theorem bucketAt_splitBucket_old (t : EHT.Table) (bid c : Nat)
    (hlt : c < t.nextId) (hne : c ≠ bid) :
    (EHT.splitBucket t bid).bucketAt c = t.bucketAt c := by
  unfold EHT.Table.bucketAt
  rw [splitBucket_store, List.find?_append, find?_eraseP_ne _ _ _ hne]
  have hnone :
      (List.find? (fun e => e.1 = c)
        [(t.nextId, EHT.fillBucket t.bucketSize ((t.bucketAt bid).depth + 1)
            ((t.bucketAt bid).items.filter
              (fun it => it.1 / 2 ^ (t.bucketAt bid).depth % 2 = 0))),
         (t.nextId + 1, EHT.fillBucket t.bucketSize ((t.bucketAt bid).depth + 1)
            ((t.bucketAt bid).items.filter
              (fun it => it.1 / 2 ^ (t.bucketAt bid).depth % 2 = 1)))]) = none := by
    apply List.find?_eq_none.mpr
    intro e he
    simp only [List.mem_cons, List.not_mem_nil, or_false] at he
    rcases he with h | h <;> subst h <;> simp <;> omega
  rw [hnone, Option.or_none]

theorem bucketAt_splitBucket_zero (t : EHT.Table) (bid : Nat)
    (h5 : ∀ sid ∈ t.store.map (fun e => e.1), sid < t.nextId) :
    (EHT.splitBucket t bid).bucketAt t.nextId =
      EHT.fillBucket t.bucketSize ((t.bucketAt bid).depth + 1)
        ((t.bucketAt bid).items.filter
          (fun it => it.1 / 2 ^ (t.bucketAt bid).depth % 2 = 0)) := by
  unfold EHT.Table.bucketAt
  rw [splitBucket_store, List.find?_append]
  have hnone : (List.find? (fun e => e.1 = t.nextId)
      (t.store.eraseP (fun e => e.1 = bid))) = none := by
    apply List.find?_eq_none.mpr
    intro e he
    have hmem : e ∈ t.store := (List.eraseP_sublist _).mem he
    have := h5 e.1 (List.mem_map_of_mem _ hmem)
    simp
    omega
  rw [hnone, Option.none_or, List.find?_cons_of_pos _ (by simp)]
  rfl

theorem bucketAt_splitBucket_one (t : EHT.Table) (bid : Nat)
    (h5 : ∀ sid ∈ t.store.map (fun e => e.1), sid < t.nextId) :
    (EHT.splitBucket t bid).bucketAt (t.nextId + 1) =
      EHT.fillBucket t.bucketSize ((t.bucketAt bid).depth + 1)
        ((t.bucketAt bid).items.filter
          (fun it => it.1 / 2 ^ (t.bucketAt bid).depth % 2 = 1)) := by
  unfold EHT.Table.bucketAt
  rw [splitBucket_store, List.find?_append]
  have hnone : (List.find? (fun e => e.1 = t.nextId + 1)
      (t.store.eraseP (fun e => e.1 = bid))) = none := by
    apply List.find?_eq_none.mpr
    intro e he
    have hmem : e ∈ t.store := (List.eraseP_sublist _).mem he
    have := h5 e.1 (List.mem_map_of_mem _ hmem)
    simp
    omega
  rw [hnone, Option.none_or, List.find?_cons_of_neg _ (by simp),
    List.find?_cons_of_pos _ (by simp)]
  rfl

theorem inv_splitBucket (t : EHT.Table) (bid : Nat) (hI : EHT.Inv t)
    (hd : (t.bucketAt bid).depth < t.globalDepth) :
    EHT.Inv (EHT.splitBucket t bid) := by
  obtain ⟨h1, h2, h3, h4, h5⟩ := hI
  have hkeys : ((EHT.splitBucket t bid).store.map (fun e => e.1)) =
      ((t.store.map (fun e => e.1)).eraseP (fun x => x = bid))
        ++ [t.nextId, t.nextId + 1] := by
    rw [splitBucket_store, List.map_append, keys_eraseP]
    rfl
  refine ⟨?_, ?_, ?_, ?_, ?_⟩
  · rw [splitBucket_dir, splitBucket_globalDepth]
    simp only [List.length_map, List.length_range]
    exact h1
  · intro e he
    rw [splitBucket_dir] at he
    rw [splitBucket_globalDepth]
    obtain ⟨i, hi, rfl⟩ := List.mem_map.mp he
    have hilt : i < t.dir.length := List.mem_range.mp hi
    by_cases hdir : t.dirBucketId i = bid
    · rw [if_pos hdir]
      by_cases hbit : i / 2 ^ (t.bucketAt bid).depth % 2 = 1
      · rw [if_pos hbit, bucketAt_splitBucket_one t bid h5, fillBucket_depth]
        omega
      · rw [if_neg hbit, bucketAt_splitBucket_zero t bid h5, fillBucket_depth]
        omega
    · rw [if_neg hdir]
      have hmem : t.dirBucketId i ∈ t.dir := dirBucketId_mem t i hilt
      have hlt : t.dirBucketId i < t.nextId :=
        h5 _ (h4 _ hmem)
      rw [bucketAt_splitBucket_old t bid _ hlt hdir]
      exact h2 _ hmem
  · rw [hkeys]
    rw [List.nodup_append]
    refine ⟨h3.sublist (List.eraseP_sublist _), by simp, ?_⟩
    intro x hx
    have hx' : x ∈ t.store.map (fun e => e.1) := (List.eraseP_sublist _).mem hx
    have := h5 _ hx'
    simp
    omega
  · intro e he
    rw [splitBucket_dir] at he
    rw [hkeys]
    obtain ⟨i, hi, rfl⟩ := List.mem_map.mp he
    have hilt : i < t.dir.length := List.mem_range.mp hi
    by_cases hdir : t.dirBucketId i = bid
    · rw [if_pos hdir]
      by_cases hbit : i / 2 ^ (t.bucketAt bid).depth % 2 = 1
      · rw [if_pos hbit]
        simp
      · rw [if_neg hbit]
        simp
    · rw [if_neg hdir]
      apply List.mem_append_left
      rw [List.mem_eraseP_of_neg (by simp [hdir])]
      exact h4 _ (dirBucketId_mem t i hilt)
  · intro sid hs
    rw [hkeys] at hs
    rw [show (EHT.splitBucket t bid).nextId = t.nextId + 2 from rfl]
    rcases List.mem_append.mp hs with h | h
    · have := h5 _ ((List.eraseP_sublist _).mem h)
      omega
    · simp only [List.mem_cons, List.not_mem_nil, or_false] at h
      omega

theorem inv_doubleDir (t : EHT.Table) (hI : EHT.Inv t) : EHT.Inv (EHT.doubleDir t) := by
  obtain ⟨h1, h2, h3, h4, h5⟩ := hI
  refine ⟨?_, ?_, h3, ?_, h5⟩
  · show (t.dir ++ t.dir).length = 2 ^ (t.globalDepth + 1 + 1)
    rw [List.length_append, h1]
    ring
  · intro bid hb
    have hb' : bid ∈ t.dir := by
      rcases List.mem_append.mp hb with h | h <;> exact h
    have hsame : (EHT.doubleDir t).bucketAt bid = t.bucketAt bid := rfl
    rw [hsame]
    exact Nat.le_succ_of_le (h2 _ hb')
  · intro bid hb
    rcases List.mem_append.mp hb with h | h <;> exact h4 _ h

theorem indexOf_lt_dirLength (t : EHT.Table) (k : Nat)
    (h1 : t.dir.length = 2 ^ (t.globalDepth + 1)) :
    t.indexOf k < t.dir.length := by
  have hp : 0 < 2 ^ t.globalDepth := Nat.pos_pow_of_pos _ (by norm_num)
  have hlt : t.indexOf k < 2 ^ t.globalDepth := Nat.mod_lt _ hp
  have hle : 2 ^ t.globalDepth ≤ 2 ^ (t.globalDepth + 1) :=
    Nat.pow_le_pow_right (by norm_num) (Nat.le_succ _)
  omega

theorem inv_splitStep (t : EHT.Table) (k : Nat) (hI : EHT.Inv t) :
    EHT.Inv (EHT.splitStep t k) := by
  have hmem : t.dirBucketId (t.indexOf k) ∈ t.dir :=
    dirBucketId_mem t _ (indexOf_lt_dirLength t k hI.1)
  have hdle : (t.bucketAt (t.dirBucketId (t.indexOf k))).depth ≤ t.globalDepth :=
    hI.2.1 _ hmem
  unfold EHT.splitStep
  dsimp only
  by_cases hc : (t.bucketAt (t.dirBucketId (t.indexOf k))).depth = t.globalDepth
  · rw [if_pos hc]
    apply inv_splitBucket _ _ (inv_doubleDir t hI)
    have hsame : (EHT.doubleDir t).bucketAt (t.dirBucketId (t.indexOf k)) =
        t.bucketAt (t.dirBucketId (t.indexOf k)) := rfl
    rw [hsame, hc]
    exact Nat.lt_succ_self _
  · rw [if_neg hc]
    exact inv_splitBucket _ _ hI (lt_of_le_of_ne hdle hc)

theorem inv_insertLoop (fuel : Nat) :
    ∀ (t t' : EHT.Table) (k : Nat) (v : Int), EHT.Inv t →
      EHT.insertLoop fuel t k v = some t' → EHT.Inv t' := by
  induction fuel with
  | zero =>
      intro t t' k v hI h
      cases h
  | succ fuel ih =>
      intro t t' k v hI h
      unfold EHT.insertLoop at h
      dsimp only at h
      cases hins : (t.bucketAt (t.dirBucketId (t.indexOf k))).insert k v with
      | some b2 =>
          rw [hins] at h
          cases h
          exact inv_storeSet _ _ _ hI (bucketInsert_depth hins)
      | none =>
          rw [hins] at h
          exact ih _ _ _ _ (inv_splitStep t k hI) h

theorem inv_removeKey (t : EHT.Table) (k : Nat) (hI : EHT.Inv t) :
    EHT.Inv (t.removeKey k).1 := by
  unfold EHT.Table.removeKey
  dsimp only
  apply inv_storeSet _ _ _ hI
  unfold EHT.Bucket.removeKey
  by_cases h : (t.bucketAt (t.dirBucketId (t.indexOf k))).items.any (fun it => it.1 = k)
  · rw [if_pos h]
  · rw [if_neg h]

theorem inv_reach {B : Nat} {t : EHT.Table} (h : EHT.Reach B t) : EHT.Inv t := by
  induction h with
  | init => exact inv_init B
  | insert hr hstep ih => exact inv_insertLoop _ _ _ _ _ ih hstep
  | remove hr ih => exact inv_removeKey _ _ ih

theorem splitStep_dir_length (t : EHT.Table) (k : Nat) :
    (EHT.splitStep t k).dir.length =
      if (t.bucketAt (t.dirBucketId (t.indexOf k))).depth = t.globalDepth
      then 2 * t.dir.length else t.dir.length := by
  unfold EHT.splitStep
  dsimp only
  by_cases hc : (t.bucketAt (t.dirBucketId (t.indexOf k))).depth = t.globalDepth
  · rw [if_pos hc, if_pos hc, splitBucket_dir]
    simp only [List.length_map, List.length_range]
    show (t.dir ++ t.dir).length = 2 * t.dir.length
    rw [List.length_append]
    ring
  · rw [if_neg hc, if_neg hc, splitBucket_dir]
    simp only [List.length_map, List.length_range]

/-- C9 counterexample: the constructor state — which is reachable — has
global depth 0 but a directory of 2 slots, not `2^0 = 1`: the first variant's
constructor calls `dir_.resize(2)` while leaving `global_depth_ = 0`, so in
every reachable state the directory holds `2^(G+1)` slots, not `2^G`. -/
theorem C9_counterexample :
    EHT.Reach 2 (EHT.Table.init 2) ∧
    (EHT.Table.init 2).globalDepth = 0 ∧
    (EHT.Table.init 2).dir.length = 2 ∧
    (EHT.Table.init 2).dir.length ≠ 2 ^ (EHT.Table.init 2).globalDepth :=
  ⟨EHT.Reach.init, by decide, by decide, by decide⟩

/-- C9 amended: in every reachable state the directory has exactly `2^(G+1)`
slots where `G` is the global depth; every bucket referenced by the directory
has local depth `L ≤ G`; and a split round doubles the directory exactly when
the insert targeted a full bucket whose local depth equals the global depth,
while a round whose target accepts the entry leaves the directory and the
global depth unchanged. -/
theorem C9_amended (B : Nat) (t : EHT.Table) (hr : EHT.Reach B t) :
    t.dir.length = 2 ^ (t.globalDepth + 1) ∧
    (∀ bid ∈ t.dir, (t.bucketAt bid).depth ≤ t.globalDepth) ∧
    (∀ k v, (t.bucketAt (t.dirBucketId (t.indexOf k))).insert k v = none →
      ((EHT.splitStep t k).dir.length = 2 * t.dir.length ↔
        (t.bucketAt (t.dirBucketId (t.indexOf k))).depth = t.globalDepth)) ∧
    (∀ k v b' fuel t', (t.bucketAt (t.dirBucketId (t.indexOf k))).insert k v = some b' →
      EHT.insertLoop (fuel + 1) t k v = some t' →
      t'.dir = t.dir ∧ t'.globalDepth = t.globalDepth) := by
  obtain ⟨h1, h2, h3, h4, h5⟩ := inv_reach hr
  refine ⟨h1, h2, ?_, ?_⟩
  · intro k v hfull
    rw [splitStep_dir_length]
    by_cases hc : (t.bucketAt (t.dirBucketId (t.indexOf k))).depth = t.globalDepth
    · rw [if_pos hc]
      exact iff_of_true rfl hc
    · rw [if_neg hc]
      constructor
      · intro hlen
        exfalso
        have hpos : 0 < 2 ^ (t.globalDepth + 1) := Nat.pos_pow_of_pos _ (by norm_num)
        omega
      · intro h
        exact absurd h hc
  · intro k v b' fuel t' hins hloop
    unfold EHT.insertLoop at hloop
    dsimp only at hloop
    rw [hins] at hloop
    cases hloop
    exact ⟨rfl, rfl⟩

/-- Witness for C9 amended at the concrete reachable state: the constructor
state with bucket capacity 2. -/
theorem C9_amended_witness :
    (EHT.Table.init 2).dir.length = 2 ^ ((EHT.Table.init 2).globalDepth + 1) ∧
    (∀ bid ∈ (EHT.Table.init 2).dir,
      ((EHT.Table.init 2).bucketAt bid).depth ≤ (EHT.Table.init 2).globalDepth) ∧
    (∀ k v, ((EHT.Table.init 2).bucketAt
        ((EHT.Table.init 2).dirBucketId ((EHT.Table.init 2).indexOf k))).insert k v = none →
      ((EHT.splitStep (EHT.Table.init 2) k).dir.length = 2 * (EHT.Table.init 2).dir.length ↔
        ((EHT.Table.init 2).bucketAt
          ((EHT.Table.init 2).dirBucketId ((EHT.Table.init 2).indexOf k))).depth =
          (EHT.Table.init 2).globalDepth)) ∧
    (∀ k v b' fuel t', ((EHT.Table.init 2).bucketAt
        ((EHT.Table.init 2).dirBucketId ((EHT.Table.init 2).indexOf k))).insert k v = some b' →
      EHT.insertLoop (fuel + 1) (EHT.Table.init 2) k v = some t' →
      t'.dir = (EHT.Table.init 2).dir ∧ t'.globalDepth = (EHT.Table.init 2).globalDepth) :=
  C9_amended 2 (EHT.Table.init 2) EHT.Reach.init

/-! ## C1 — B+tree scenario, and C5 — insert/remove/lookup round trip -/

/-- C1 counterexample: after inserting 1 … 5 and removing 3 the tree is an
internal root with keys [3,5] over the three leaves {1,2}, {4}, {5} — not
the claimed root [3] over {1,2}, {4,5}.  The leaf {4} keeps
`GetMinSize() = max_size / 2 = 1` entry, so no merge is triggered. -/
theorem C1_counterexample :
    ((BPT.runOps 3 3 c1ops).map (fun t => (BPT.rootKeys t, BPT.leaves t)))
      = some (some [3, 5], some [[1, 2], [4], [5]]) ∧
    ¬ ((BPT.runOps 3 3 c1ops).map (fun t => (BPT.rootKeys t, BPT.leaves t)))
      = some (some [3], some [[1, 2], [4, 5]]) := by decide

/-- C1 amended: inserting 1 … 5 produces the claimed root [3,5] over leaves
{1,2}, {3,4}, {5}; removing 3 only deletes the key from its leaf — the leaf
{4} still meets the minimum occupancy `max_size / 2 = 1` of
`BPlusTreePage::GetMinSize`, so no merge or root shrink occurs and the final
tree is the internal root [3,5] over leaves {1,2}, {4}, {5}. -/
theorem C1_amended :
    ((BPT.runOps 3 3 c1insOps).map (fun t => (BPT.rootKeys t, BPT.leaves t)))
      = some (some [3, 5], some [[1, 2], [3, 4], [5]]) ∧
    ((BPT.runOps 3 3 c1ops).map (fun t => (BPT.rootKeys t, BPT.leaves t)))
      = some (some [3, 5], some [[1, 2], [4], [5]]) ∧
    ((BPT.runOps 3 3 c1ops).map (fun t =>
      (BPT.leaves t).map (fun ls => ls.map List.length)))
      = some (some [2, 1, 1]) := by decide

/-- C5, evaluated at the failing input: inserting keys 1 and 2 and then
removing 2 sends `DeleteEntry` into the root-shrink branch guarded by
`root_page_id_ == page && IsRootPage() && GetSize() == 1`.  The comment on
that branch describes an internal root with a single child, but a root LEAF
with one remaining pair also passes the test, so the code reinterprets the
leaf page as an internal page and installs `ValueAt(0)` — bytes of the
remaining record id — as the new root page id, then deletes the root page.
The embedding returns `none` at the kind-confused cast; the claim's
`lookup(1) = 1` after this remove is unattainable.  Before the remove the
round trip still holds (second conjunct). -/
theorem C5_code_bug :
    BPT.runOps 3 3 [.ins 1 1, .ins 2 2, .del 2] = none ∧
    (BPT.runOps 3 3 [.ins 1 1, .ins 2 2]).map (fun t => BPT.lookup t 1)
      = some (some (some 1)) := by decide

/-! ## C8: deadlock-detector lemmas -/

theorem dfsFold_frozen (visit : List Int → Int → Option (List Int) × List Int)
    (l : List Int) (st0 : List Int) (s : List Int) :
    DD.dfsFold visit l (some st0, s) = (some st0, s) := by
  induction l with
  | nil => rfl
  | cons w ws ih => rw [DD.dfsFold]; exact ih

theorem dfsFold_some (visit : List Int → Int → Option (List Int) × List Int) :
    ∀ (l : List Int) (acc : Option (List Int) × List Int) (st s2 : List Int),
      DD.dfsFold visit l acc = (some st, s2) →
      acc.1 = some st ∨ ∃ w ∈ l, ∃ s s2b, visit s w = (some st, s2b) := by
  intro l
  induction l with
  | nil =>
      intro acc st s2 h
      left
      rw [DD.dfsFold] at h
      rw [h]
  | cons w ws ih =>
      intro acc st s2 h
      rcases acc with ⟨o, s⟩
      cases o with
      | some st0 =>
          have h2 : DD.dfsFold visit ws (some st0, s) = (some st, s2) := h
          rw [dfsFold_frozen] at h2
          injection h2 with h1 _
          left
          exact h1
      | none =>
          have h2 : DD.dfsFold visit ws (visit s w) = (some st, s2) := h
          rcases hv : visit s w with ⟨o2, sB⟩
          rw [hv] at h2
          cases o2 with
          | some stB =>
              rw [dfsFold_frozen] at h2
              injection h2 with h1 _
              injection h1 with h1
              right
              exact ⟨w, List.mem_cons_self _ _, s, sB, by rw [hv, h1]⟩
          | none =>
              rcases ih _ _ _ h2 with h1 | ⟨w2, hw2, s3, s4, hvv⟩
              · exact absurd h1 (by simp)
              · exact Or.inr ⟨w2, List.mem_cons_of_mem _ hw2, s3, s4, hvv⟩

theorem dfsVisit_stack (g : DD.Graph) :
    ∀ (fuel : Nat) (safe active : List Int) (v : Int) (st s2 : List Int),
      DD.chained g active →
      (active ≠ [] → v ∈ DD.succs g (active.headD 0)) →
      DD.dfsVisit g fuel safe active v = (some st, s2) →
      DD.chained g st ∧ st ≠ [] ∧ ∃ w ∈ st, w ∈ DD.succs g (st.headD 0) := by
  intro fuel
  induction fuel with
  | zero =>
      intro safe active v st s2 _ _ h
      exact absurd h (by simp [DD.dfsVisit])
  | succ fuel ih =>
      intro safe active v st s2 hch hpre h
      rw [DD.dfsVisit] at h
      by_cases hva : v ∈ active
      · rw [if_pos hva] at h
        injection h with h1 _
        injection h1 with h1
        subst h1
        exact ⟨hch, List.ne_nil_of_mem hva,
          v, hva, hpre (List.ne_nil_of_mem hva)⟩
      · rw [if_neg hva] at h
        by_cases hvs : v ∈ safe
        · rw [if_pos hvs] at h
          injection h with h1 _
          exact Option.noConfusion h1
        · rw [if_neg hvs] at h
          rcases hF : DD.dfsFold (fun s w => DD.dfsVisit g fuel s (v :: active) w)
              (DD.succs g v) (none, safe) with ⟨o, sB⟩
          rw [hF] at h
          cases o with
          | none =>
              injection h with h1 _
              exact Option.noConfusion h1
          | some stB =>
              injection h with h1 _
              injection h1 with h1
              subst h1
              rcases dfsFold_some _ _ _ _ _ hF with h1 | ⟨w, hw, s3, s4, hvv⟩
              · exact absurd h1 (by simp)
              · have hch2 : DD.chained g (v :: active) := by
                  cases active with
                  | nil => exact List.chain'_singleton v
                  | cons a as => exact List.Chain'.cons (hpre (by simp)) hch
                exact ih s3 (v :: active) w stB s4 hch2 (fun _ => hw) hvv

theorem split_at_mem {w : Int} :
    ∀ {st : List Int}, w ∈ st →
      ∃ pre suf, st = pre ++ suf ∧ pre ≠ [] ∧ pre.getLast? = some w ∧
        pre.headD 0 = st.headD 0 := by
  intro st
  induction st with
  | nil => intro h; cases h
  | cons a rest ih =>
      intro h
      by_cases hw : w = a
      · exact ⟨[a], rest, rfl, by simp, by simp [hw], rfl⟩
      · have hmem : w ∈ rest := by
          rcases List.mem_cons.mp h with h1 | h1
          · exact absurd h1 hw
          · exact h1
        rcases ih hmem with ⟨pre, suf, he, hne, hl, _⟩
        refine ⟨a :: pre, suf, by rw [he]; rfl, by simp, ?_, rfl⟩
        cases pre with
        | nil => exact absurd rfl hne
        | cons b t => rw [List.getLast?_cons_cons]; exact hl

theorem stack_cycle (g : DD.Graph) (st : List Int)
    (hch : DD.chained g st) (hb : ∃ w ∈ st, w ∈ DD.succs g (st.headD 0)) :
    ∃ c, DD.isCycle g c ∧ ∀ x ∈ c, x ∈ st := by
  obtain ⟨w, hw, hwe⟩ := hb
  obtain ⟨pre, suf, he, hne, hl, hh⟩ := split_at_mem hw
  have hch2 : List.Chain' (fun a b => a ∈ DD.succs g b) (pre ++ suf) := by
    rw [he] at hch
    exact hch
  refine ⟨pre, ⟨hne, (List.chain'_append.mp hch2).1, ?_⟩, ?_⟩
  · have h2 : pre.getLastD 0 = w := by
      rw [List.getLastD_eq_getLast?, hl]
      rfl
    rw [h2, hh]
    exact hwe
  · intro x hx
    rw [he]
    exact List.mem_append_left _ hx

theorem chain_pred (g : DD.Graph) :
    ∀ (c : List Int), List.Chain' (fun a b => a ∈ DD.succs g b) c →
      ∀ x ∈ c, (∃ y ∈ c, x ∈ DD.succs g y) ∨ c.getLast? = some x := by
  intro c
  induction c with
  | nil => intro _ x hx; cases hx
  | cons a rest ih =>
      intro hch x hx
      cases rest with
      | nil =>
          right
          simp at hx
          simp [hx]
      | cons b t =>
          rw [List.chain'_cons] at hch
          obtain ⟨hab, hch2⟩ := hch
          rcases List.mem_cons.mp hx with hxa | hxr
          · exact Or.inl ⟨b, List.mem_cons_of_mem _ (List.mem_cons_self _ _), hxa ▸ hab⟩
          · rcases ih hch2 x hxr with ⟨y, hy, hxy⟩ | hlast
            · exact Or.inl ⟨y, List.mem_cons_of_mem _ hy, hxy⟩
            · right; rw [List.getLast?_cons_cons]; exact hlast

theorem cycle_has_pred (g : DD.Graph) (c : List Int) (hc : DD.isCycle g c) :
    ∀ x ∈ c, ∃ y ∈ c, x ∈ DD.succs g y := by
  obtain ⟨hne, hch, hcl⟩ := hc
  intro x hx
  rcases chain_pred g c hch x hx with h | h
  · exact h
  · have hx2 : c.getLastD 0 = x := by
      rw [List.getLastD_eq_getLast?, h]
      rfl
    refine ⟨c.headD 0, ?_, hx2 ▸ hcl⟩
    cases c with
    | nil => exact absurd rfl hne
    | cons a t => exact List.mem_cons_self _ _

theorem mem_succs_g0 {y x : Int} (h : x ∈ DD.succs DD.g0 y) :
    (y = 1 ∧ x = 5) ∨ (y = 5 ∧ x = 2) ∨ (y = 2 ∧ x = 3) ∨ (y = 3 ∧ x = 2) := by
  by_cases h1 : y = 1
  · subst h1
    have hs : DD.succs DD.g0 1 = [5] := by decide
    rw [hs] at h
    simp at h
    exact Or.inl ⟨rfl, h⟩
  by_cases h5 : y = 5
  · subst h5
    have hs : DD.succs DD.g0 5 = [2] := by decide
    rw [hs] at h
    simp at h
    exact Or.inr (Or.inl ⟨rfl, h⟩)
  by_cases h2 : y = 2
  · subst h2
    have hs : DD.succs DD.g0 2 = [3] := by decide
    rw [hs] at h
    simp at h
    exact Or.inr (Or.inr (Or.inl ⟨rfl, h⟩))
  by_cases h3 : y = 3
  · subst h3
    have hs : DD.succs DD.g0 3 = [2] := by decide
    rw [hs] at h
    simp at h
    exact Or.inr (Or.inr (Or.inr ⟨rfl, h⟩))
  exfalso
  have hwf : DD.g0.waitsFor = [(1, [5]), (5, [2]), (2, [3]), (3, [2])] := rfl
  simp only [DD.succs, hwf] at h
  rw [List.find?_cons_of_neg _ (by simp; omega),
      List.find?_cons_of_neg _ (by simp; omega),
      List.find?_cons_of_neg _ (by simp; omega),
      List.find?_cons_of_neg _ (by simp; omega)] at h
  simp at h

theorem g0_no_cycle_through_5 :
    ∀ c, DD.isCycle DD.g0 c → (5 : Int) ∉ c := by
  intro c hc h5
  obtain ⟨y, hy, h5y⟩ := cycle_has_pred _ _ hc 5 h5
  rcases mem_succs_g0 h5y with ⟨hy1, _⟩ | ⟨_, hx⟩ | ⟨_, hx⟩ | ⟨_, hx⟩
  · subst hy1
    obtain ⟨z, _, h1z⟩ := cycle_has_pred _ _ hc 1 hy
    rcases mem_succs_g0 h1z with ⟨_, hx⟩ | ⟨_, hx⟩ | ⟨_, hx⟩ | ⟨_, hx⟩ <;>
      exact absurd hx (by decide)
  · exact absurd hx (by decide)
  · exact absurd hx (by decide)
  · exact absurd hx (by decide)

theorem hasCycleAux_sound (g : DD.Graph) :
    ∀ (starts safe : List Int) (v : Int) (st s2 : List Int),
      DD.hasCycleAux g safe starts = (some (v, st), s2) →
      v = DD.listMax st ∧ ∃ c, DD.isCycle g c ∧ ∀ x ∈ c, x ∈ st := by
  intro starts
  induction starts with
  | nil =>
      intro safe v st s2 h
      exact absurd h (by simp [DD.hasCycleAux])
  | cons a rest ih =>
      intro safe v st s2 h
      rw [DD.hasCycleAux] at h
      rcases hv : DD.dfsVisit g (DD.dfsFuel g) safe [] a with ⟨o, sB⟩
      rw [hv] at h
      cases o with
      | some stack =>
          injection h with h1 _
          injection h1 with h1
          have hv1 : DD.listMax stack = v := congrArg Prod.fst h1
          have hst : stack = st := congrArg Prod.snd h1
          subst hst
          refine ⟨hv1.symm, ?_⟩
          have hconc := dfsVisit_stack g (DD.dfsFuel g) safe [] a stack sB
            List.chain'_nil (fun hne => absurd rfl hne) hv
          exact stack_cycle g stack hconc.1 hconc.2.2
      | none => exact ih sB v st s2 h

theorem breakCycles_sound :
    ∀ (fuel : Nat) (g : DD.Graph) (safe : List Int)
      (vs : List (Int × List Int)) (g2 : DD.Graph),
      DD.breakCycles g safe fuel = some (vs, g2) →
      DD.detectSpec g vs g2 ∧
        ∃ s, (DD.hasCycleAux g2 s g2.txnSet).1 = none := by
  intro fuel
  induction fuel with
  | zero =>
      intro g safe vs g2 h
      exact absurd h (by simp [DD.breakCycles])
  | succ fuel ih =>
      intro g safe vs g2 h
      rw [DD.breakCycles] at h
      rcases hc : DD.hasCycleAux g safe g.txnSet with ⟨o, sB⟩
      rw [hc] at h
      cases o with
      | none =>
          injection h with h1
          have hvs : ([] : List (Int × List Int)) = vs := congrArg Prod.fst h1
          have hg : g = g2 := congrArg Prod.snd h1
          subst hvs
          subst hg
          exact ⟨rfl, safe, by rw [hc]⟩
      | some p =>
          rcases p with ⟨victim, stack⟩
          have h2 : (DD.breakCycles (DD.deleteNode g victim) sB fuel).map
              (fun r => ((victim, stack) :: r.1, r.2)) = some (vs, g2) := h
          rcases hb : DD.breakCycles (DD.deleteNode g victim) sB fuel
              with _ | ⟨vs0, g02⟩
          · rw [hb] at h2
            exact absurd h2 (by simp)
          · rw [hb] at h2
            have h3 : some ((victim, stack) :: vs0, g02) = some (vs, g2) := h2
            injection h3 with h1
            have hvs : (victim, stack) :: vs0 = vs := congrArg Prod.fst h1
            have hg : g02 = g2 := congrArg Prod.snd h1
            subst hvs
            subst hg
            obtain ⟨hspec, hfin⟩ := ih _ sB _ _ hb
            have hsound := hasCycleAux_sound g g.txnSet safe victim stack sB hc
            exact ⟨⟨hsound.1, hsound.2, hspec⟩, hfin⟩

/-- C8 counterexample: in the wait-for graph 1 → 5 → 2 → 3 → 2 the only
cycle is 2 ⇄ 3, whose largest transaction id is 3; yet `HasCycle`, started
from transaction 1, reports victim 5 — the maximum of the DFS active path
[3, 2, 5, 1] — although 5 lies on no cycle at all, and the detection loop
aborts the two transactions 5 and 3 instead of only 3. -/
theorem C8_counterexample :
    (DD.hasCycleAux DD.g0 [] DD.g0.txnSet).1 = some (5, [3, 2, 5, 1]) ∧
    DD.isCycle DD.g0 [3, 2] ∧
    (∀ c, DD.isCycle DD.g0 c → (5 : Int) ∉ c) ∧
    (DD.breakCycles DD.g0 [] 10).map (fun r => r.1.map Prod.fst)
      = some [5, 3] :=
  ⟨by decide,
   ⟨by decide, List.Chain'.cons (by decide) (List.chain'_singleton _), by decide⟩,
   g0_no_cycle_through_5,
   by decide⟩

/-- C8 amended: when the victim-abort loop of `RunCycleDetection` terminates,
every reported victim is the largest transaction id on the DFS active path
recorded with it, that path contains a cycle of the wait-for graph current at
that step (so the path — and hence the victim — may also include
transactions that merely lead into the cycle), the graph then loses the
victim's node, and the final graph is one on which `HasCycle` reports no
cycle. -/
theorem C8_amended (g g2 : DD.Graph) (fuel : Nat)
    (vs : List (Int × List Int))
    (h : DD.breakCycles g [] fuel = some (vs, g2)) :
    DD.detectSpec g vs g2 ∧
      ∃ s, (DD.hasCycleAux g2 s g2.txnSet).1 = none :=
  breakCycles_sound fuel g [] vs g2 h

/-- C8 witness: on the counterexample graph the loop aborts 5 (active path
[3, 2, 5, 1]) and then 3 (active path [3, 2]) and ends with an acyclic
graph. -/
theorem C8_amended_witness :
    DD.detectSpec DD.g0 [((5 : Int), [(3 : Int), 2, 5, 1]), (3, [3, 2])]
      { txnSet := [1, 2, 3, 5], waitsFor := [(1, []), (2, [])] } ∧
    ∃ s, (DD.hasCycleAux
      { txnSet := [1, 2, 3, 5], waitsFor := [(1, []), (2, [])] } s
      [1, 2, 3, 5]).1 = none :=
  C8_amended DD.g0 { txnSet := [1, 2, 3, 5], waitsFor := [(1, []), (2, [])] }
    10 [(5, [3, 2, 5, 1]), (3, [3, 2])] (by decide)


/-! ## C2: LRU-K replacer lemmas -/

theorem lruk_findNode_decomp (f : Int) :
    ∀ (l : List LRUK.RNode) (n : LRUK.RNode),
      LRUK.findNode l f = some n →
      n.frameId = f ∧ ∃ l1 l2, l = l1 ++ n :: l2 ∧ ∀ m ∈ l1, m.frameId ≠ f := by
  intro l
  induction l with
  | nil => intro n h; exact absurd h (by simp [LRUK.findNode])
  | cons a rest ih =>
      intro n h
      by_cases ha : a.frameId = f
      · rw [LRUK.findNode, List.find?_cons_of_pos _ (by simp [ha])] at h
        injection h with h1
        subst h1
        exact ⟨ha, [], rest, rfl, by simp⟩
      · rw [LRUK.findNode, List.find?_cons_of_neg _ (by simp [ha])] at h
        obtain ⟨hn, l1, l2, he, hl1⟩ := ih n h
        refine ⟨hn, a :: l1, l2, by rw [he]; rfl, ?_⟩
        intro m hm
        rcases List.mem_cons.mp hm with h1 | h1
        · rw [h1]; exact ha
        · exact hl1 m h1

theorem lruk_findNode_none (f : Int) :
    ∀ (l : List LRUK.RNode), LRUK.findNode l f = none →
      ∀ m ∈ l, m.frameId ≠ f := by
  intro l h m hm
  have h2 := List.find?_eq_none.mp h m hm
  simpa using h2

theorem lruk_erase_decomp (p : LRUK.RNode → Bool) :
    ∀ (l1 : List LRUK.RNode) (n : LRUK.RNode) (l2 : List LRUK.RNode),
      (∀ m ∈ l1, ¬ p m = true) → p n = true →
      (l1 ++ n :: l2).eraseP p = l1 ++ l2 := by
  intro l1
  induction l1 with
  | nil =>
      intro n l2 _ hn
      exact List.eraseP_cons_of_pos hn
  | cons a t ih =>
      intro n l2 h1 hn
      rw [List.cons_append, List.eraseP_cons_of_neg (h1 a (List.mem_cons_self _ _)),
        ih n l2 (fun m hm => h1 m (List.mem_cons_of_mem _ hm)) hn, List.cons_append]

theorem lruk_sorted_find_min :
    ∀ (l : List LRUK.RNode) (v : LRUK.RNode),
      List.Pairwise (fun a b => a.earliestAccess < b.earliestAccess) l →
      l.find? (fun n => n.evictable) = some v →
      v.evictable = true ∧ v ∈ l ∧
        ∀ m ∈ l, m.evictable = true → v.earliestAccess ≤ m.earliestAccess := by
  intro l
  induction l with
  | nil => intro v _ h; exact absurd h (by simp)
  | cons a rest ih =>
      intro v hp h
      obtain ⟨ha, hrest⟩ := List.pairwise_cons.mp hp
      by_cases he : a.evictable
      · rw [List.find?_cons_of_pos _ (by simp [he])] at h
        injection h with h1
        subst h1
        refine ⟨he, List.mem_cons_self _ _, ?_⟩
        intro m hm _
        rcases List.mem_cons.mp hm with h1 | h1
        · rw [h1]
        · exact Nat.le_of_lt (ha m h1)
      · rw [List.find?_cons_of_neg _ (by simp [he])] at h
        obtain ⟨h1, h2, h3⟩ := ih v hrest h
        refine ⟨h1, List.mem_cons_of_mem _ h2, ?_⟩
        intro m hm hme
        rcases List.mem_cons.mp hm with h4 | h4
        · exact absurd (h4 ▸ hme) (by simp [he])
        · exact h3 m h4 hme

theorem lruk_find_evictable :
    ∀ (l : List LRUK.RNode), (∃ n ∈ l, n.evictable = true) →
      ∃ v, l.find? (fun n => n.evictable) = some v := by
  intro l
  induction l with
  | nil => intro h; simp at h
  | cons a rest ih =>
      intro h
      by_cases he : a.evictable
      · exact ⟨a, List.find?_cons_of_pos _ (by simp [he])⟩
      · obtain ⟨n, hn, hne⟩ := h
        rcases List.mem_cons.mp hn with h1 | h1
        · exact absurd (h1 ▸ hne) (by simp [he])
        · obtain ⟨v, hv⟩ := ih ⟨n, h1, hne⟩
          exact ⟨v, by rw [List.find?_cons_of_neg _ (by simp [he])]; exact hv⟩

theorem lruk_cacheScan_cons_not (k : Nat) (n : LRUK.RNode)
    (rest : List LRUK.RNode) (best : Option (Nat × Int))
    (h : n.evictable = false) :
    LRUK.cacheScan k (n :: rest) best = LRUK.cacheScan k rest best := by
  simp [LRUK.cacheScan, h]

theorem lruk_cacheScan_cons_none (k : Nat) (n : LRUK.RNode)
    (rest : List LRUK.RNode) (h : n.evictable = true) :
    LRUK.cacheScan k (n :: rest) none
      = LRUK.cacheScan k rest (some (n.kthRecent k, n.frameId)) := by
  simp [LRUK.cacheScan, h]

theorem lruk_cacheScan_cons_lt (k : Nat) (n : LRUK.RNode)
    (rest : List LRUK.RNode) (m : Nat) (f : Int)
    (h : n.evictable = true) (hlt : n.kthRecent k < m) :
    LRUK.cacheScan k (n :: rest) (some (m, f))
      = LRUK.cacheScan k rest (some (n.kthRecent k, n.frameId)) := by
  simp [LRUK.cacheScan, h, hlt]

theorem lruk_cacheScan_cons_ge (k : Nat) (n : LRUK.RNode)
    (rest : List LRUK.RNode) (m : Nat) (f : Int)
    (h : n.evictable = true) (hge : ¬ n.kthRecent k < m) :
    LRUK.cacheScan k (n :: rest) (some (m, f))
      = LRUK.cacheScan k rest (some (m, f)) := by
  simp [LRUK.cacheScan, h, hge]

theorem lruk_cacheScan_result (k : Nat) :
    ∀ (l : List LRUK.RNode) (best : Option (Nat × Int)),
      LRUK.cacheScan k l best = best ∨
      ∃ n ∈ l, n.evictable = true ∧
        LRUK.cacheScan k l best = some (n.kthRecent k, n.frameId) := by
  intro l
  induction l with
  | nil => intro best; left; rfl
  | cons n rest ih =>
      intro best
      by_cases he : n.evictable
      · have hmem : n ∈ n :: rest := List.mem_cons_self _ _
        rcases best with _ | ⟨m, f⟩
        · rw [lruk_cacheScan_cons_none k n rest he]
          rcases ih (some (n.kthRecent k, n.frameId)) with h1 | ⟨n2, hn2, he2, h2⟩
          · exact Or.inr ⟨n, hmem, he, h1⟩
          · exact Or.inr ⟨n2, List.mem_cons_of_mem _ hn2, he2, h2⟩
        · by_cases hlt : n.kthRecent k < m
          · rw [lruk_cacheScan_cons_lt k n rest m f he hlt]
            rcases ih (some (n.kthRecent k, n.frameId)) with h1 | ⟨n2, hn2, he2, h2⟩
            · exact Or.inr ⟨n, hmem, he, h1⟩
            · exact Or.inr ⟨n2, List.mem_cons_of_mem _ hn2, he2, h2⟩
          · rw [lruk_cacheScan_cons_ge k n rest m f he hlt]
            rcases ih (some (m, f)) with h1 | ⟨n2, hn2, he2, h2⟩
            · exact Or.inl h1
            · exact Or.inr ⟨n2, List.mem_cons_of_mem _ hn2, he2, h2⟩
      · rw [lruk_cacheScan_cons_not k n rest best (by simpa using he)]
        rcases ih best with h1 | ⟨n2, hn2, he2, h2⟩
        · exact Or.inl h1
        · exact Or.inr ⟨n2, List.mem_cons_of_mem _ hn2, he2, h2⟩

theorem lruk_cacheScan_le_best (k : Nat) :
    ∀ (l : List LRUK.RNode) (m0 : Nat) (f0 : Int),
      ∃ m f, LRUK.cacheScan k l (some (m0, f0)) = some (m, f) ∧ m ≤ m0 := by
  intro l
  induction l with
  | nil => intro m0 f0; exact ⟨m0, f0, rfl, Nat.le_refl _⟩
  | cons n rest ih =>
      intro m0 f0
      by_cases he : n.evictable
      · by_cases hlt : n.kthRecent k < m0
        · rw [lruk_cacheScan_cons_lt k n rest m0 f0 he hlt]
          obtain ⟨m, f, h1, h2⟩ := ih (n.kthRecent k) n.frameId
          exact ⟨m, f, h1, Nat.le_trans h2 (Nat.le_of_lt hlt)⟩
        · rw [lruk_cacheScan_cons_ge k n rest m0 f0 he hlt]
          exact ih m0 f0
      · rw [lruk_cacheScan_cons_not k n rest _ (by simpa using he)]
        exact ih m0 f0

theorem lruk_cacheScan_le (k : Nat) :
    ∀ (l : List LRUK.RNode) (best : Option (Nat × Int)),
      ∀ n ∈ l, n.evictable = true →
        ∃ m f, LRUK.cacheScan k l best = some (m, f) ∧ m ≤ n.kthRecent k := by
  intro l
  induction l with
  | nil => intro best n hn; exact absurd hn (by simp)
  | cons a rest ih =>
      intro best n hn hne
      rcases List.mem_cons.mp hn with h1 | h1
      · subst h1
        rcases best with _ | ⟨m0, f0⟩
        · rw [lruk_cacheScan_cons_none k n rest hne]
          exact lruk_cacheScan_le_best k rest (n.kthRecent k) n.frameId
        · by_cases hlt : n.kthRecent k < m0
          · rw [lruk_cacheScan_cons_lt k n rest m0 f0 hne hlt]
            exact lruk_cacheScan_le_best k rest (n.kthRecent k) n.frameId
          · rw [lruk_cacheScan_cons_ge k n rest m0 f0 hne hlt]
            obtain ⟨m, f, h2, h3⟩ := lruk_cacheScan_le_best k rest m0 f0
            exact ⟨m, f, h2, Nat.le_trans h3 (Nat.le_of_not_lt hlt)⟩
      · by_cases he : a.evictable
        · rcases best with _ | ⟨m0, f0⟩
          · rw [lruk_cacheScan_cons_none k a rest he]
            exact ih _ n h1 hne
          · by_cases hlt : a.kthRecent k < m0
            · rw [lruk_cacheScan_cons_lt k a rest m0 f0 he hlt]
              exact ih _ n h1 hne
            · rw [lruk_cacheScan_cons_ge k a rest m0 f0 he hlt]
              exact ih _ n h1 hne
        · rw [lruk_cacheScan_cons_not k a rest best (by simpa using he)]
          exact ih _ n h1 hne


theorem lruk_historyVictim_node (l : List LRUK.RNode) (n : LRUK.RNode)
    (hsorted : List.Pairwise (fun a b => b.earliestAccess < a.earliestAccess) l)
    (h : LRUK.historyVictim l = some n) :
    n ∈ l ∧ n.evictable = true ∧
      ∀ m ∈ l, m.evictable = true → n.earliestAccess ≤ m.earliestAccess := by
  have hrev : List.Pairwise (fun a b => a.earliestAccess < b.earliestAccess)
      l.reverse := List.pairwise_reverse.mpr hsorted
  obtain ⟨h1, h2, h3⟩ := lruk_sorted_find_min l.reverse n hrev h
  exact ⟨List.mem_reverse.mp h2, h1,
    fun m hm hme => h3 m (List.mem_reverse.mpr hm) hme⟩

theorem lruk_cacheVictim_node (k : Nat) (l : List LRUK.RNode) (f : Int)
    (h : LRUK.cacheVictim k l = some f) :
    ∃ v ∈ l, v.evictable = true ∧ v.frameId = f ∧
      ∀ m ∈ l, m.evictable = true → v.kthRecent k ≤ m.kthRecent k := by
  rcases hsc : LRUK.cacheScan k l.reverse none with _ | ⟨m0, f0⟩
  · rw [LRUK.cacheVictim, hsc] at h
    exact absurd h (by simp)
  · rw [LRUK.cacheVictim, hsc] at h
    have h1x : (if f0 ≠ -1 then some f0 else none) = some f := h
    by_cases hf : f0 ≠ -1
    · rw [if_pos hf] at h1x
      injection h1x with h1
      subst h1
      rcases lruk_cacheScan_result k l.reverse none with h2 | ⟨v, hv, hve, h2⟩
      · rw [hsc] at h2
        exact absurd h2 (by simp)
      · rw [hsc] at h2
        injection h2 with h2
        have hm0 : m0 = v.kthRecent k := congrArg Prod.fst h2
        have hf0 : f0 = v.frameId := congrArg Prod.snd h2
        refine ⟨v, List.mem_reverse.mp hv, hve, hf0.symm, ?_⟩
        intro mm hmm hmme
        obtain ⟨m1, f1, h3, h4⟩ :=
          lruk_cacheScan_le k l.reverse none mm (List.mem_reverse.mpr hmm) hmme
        rw [hsc] at h3
        injection h3 with h3
        have hm1 : m0 = m1 := congrArg Prod.fst h3
        rw [← hm0, hm1]
        exact h4
    · rw [if_neg hf] at h1x
      exact absurd h1x (by simp)

theorem lruk_inv_removeHistory (r : LRUK.Replacer) (hInv : LRUK.Inv r)
    (v : LRUK.RNode) (hv : v ∈ r.history) (hve : v.evictable = true) :
    LRUK.Inv { r with history := LRUK.removeNode r.history v.frameId,
                      evictSize := r.evictSize - 1,
                      currSize := r.currSize - 1 } := by
  obtain ⟨l1, l2, he⟩ := List.append_of_mem hv
  have hmid : (r.history ++ r.cache).map (fun n => n.frameId)
      = (l1.map (fun n => n.frameId)) ++ v.frameId ::
        ((l2 ++ r.cache).map (fun n => n.frameId)) := by
    rw [he]
    simp
  have hnod := hInv.fidNodup
  rw [hmid] at hnod
  have hnotin : v.frameId ∉ (l1.map (fun n => n.frameId))
      ++ ((l2 ++ r.cache).map (fun n => n.frameId)) :=
    (List.nodup_cons.mp (List.nodup_middle.mp hnod)).1
  have hl1 : ∀ m ∈ l1, m.frameId ≠ v.frameId := by
    intro m hm hfe
    exact hnotin (List.mem_append_left _ (hfe ▸ List.mem_map_of_mem _ hm))
  have herase : LRUK.removeNode r.history v.frameId = l1 ++ l2 := by
    rw [LRUK.removeNode, he]
    exact lruk_erase_decomp _ l1 v l2 (fun m hm => by simp [hl1 m hm]) (by simp)
  have hsub : (l1 ++ l2).Sublist (l1 ++ v :: l2) :=
    List.Sublist.append_left (List.sublist_cons_self v l2) l1
  have hmemold : ∀ m, m ∈ l1 ++ l2 → m ∈ r.history := by
    intro m hm
    rw [he]
    exact hsub.mem hm
  refine ⟨hInv.hk, ?_, ?_, hInv.cacheLo, ?_, ?_, ?_, ?_, ?_⟩
  · intro n hn
    exact hInv.histLo n (hmemold n (by simpa [herase] using hn))
  · intro n hn
    exact hInv.histHi n (hmemold n (by simpa [herase] using hn))
  · show r.evictSize - 1 = _
    have hold := hInv.evictEq
    rw [he] at hold
    simp only [herase]
    simp only [List.countP_append, List.countP_cons] at hold ⊢
    rw [hve] at hold
    simp at hold
    omega
  · intro n hn hne
    refine hInv.evictPos n ?_ hne
    rcases List.mem_append.mp hn with h1 | h1
    · exact List.mem_append_left _ (hmemold n (by simpa [herase] using h1))
    · exact List.mem_append_right _ h1
  · have hs := hInv.sorted
    rw [he] at hs
    simpa [herase] using hs.sublist hsub
  · intro n hn
    exact hInv.tsLt n (hmemold n (by simpa [herase] using hn))
  · have hsub2 : ((l1 ++ l2) ++ r.cache).Sublist ((l1 ++ v :: l2) ++ r.cache) :=
      List.Sublist.append_right hsub r.cache
    have := hInv.fidNodup
    rw [he] at this
    simpa [herase] using this.sublist (hsub2.map _)

theorem lruk_inv_removeCache (r : LRUK.Replacer) (hInv : LRUK.Inv r)
    (v : LRUK.RNode) (hv : v ∈ r.cache) (hve : v.evictable = true) :
    LRUK.Inv { r with cache := LRUK.removeNode r.cache v.frameId,
                      evictSize := r.evictSize - 1,
                      currSize := r.currSize - 1 } := by
  obtain ⟨l1, l2, he⟩ := List.append_of_mem hv
  have hmid : (r.history ++ r.cache).map (fun n => n.frameId)
      = ((r.history ++ l1).map (fun n => n.frameId)) ++ v.frameId ::
        (l2.map (fun n => n.frameId)) := by
    rw [he]
    simp
  have hnod := hInv.fidNodup
  rw [hmid] at hnod
  have hnotin : v.frameId ∉ ((r.history ++ l1).map (fun n => n.frameId))
      ++ (l2.map (fun n => n.frameId)) :=
    (List.nodup_cons.mp (List.nodup_middle.mp hnod)).1
  have hl1 : ∀ m ∈ l1, m.frameId ≠ v.frameId := by
    intro m hm hfe
    exact hnotin (List.mem_append_left _
      (hfe ▸ List.mem_map_of_mem _ (List.mem_append_right _ hm)))
  have herase : LRUK.removeNode r.cache v.frameId = l1 ++ l2 := by
    rw [LRUK.removeNode, he]
    exact lruk_erase_decomp _ l1 v l2 (fun m hm => by simp [hl1 m hm]) (by simp)
  have hsub : (l1 ++ l2).Sublist (l1 ++ v :: l2) :=
    List.Sublist.append_left (List.sublist_cons_self v l2) l1
  have hmemold : ∀ m, m ∈ l1 ++ l2 → m ∈ r.cache := by
    intro m hm
    rw [he]
    exact hsub.mem hm
  refine ⟨hInv.hk, hInv.histLo, hInv.histHi, ?_, ?_, ?_, hInv.sorted, hInv.tsLt, ?_⟩
  · intro n hn
    exact hInv.cacheLo n (hmemold n (by simpa [herase] using hn))
  · show r.evictSize - 1 = _
    have hold := hInv.evictEq
    rw [he] at hold
    simp only [herase]
    simp only [List.countP_append, List.countP_cons] at hold ⊢
    rw [hve] at hold
    simp at hold
    omega
  · intro n hn hne
    refine hInv.evictPos n ?_ hne
    rcases List.mem_append.mp hn with h1 | h1
    · exact List.mem_append_left _ h1
    · exact List.mem_append_right _ (hmemold n (by simpa [herase] using h1))
  · have hsub2 : (r.history ++ (l1 ++ l2)).Sublist (r.history ++ (l1 ++ v :: l2)) :=
      List.Sublist.append_left hsub r.history
    have := hInv.fidNodup
    rw [he] at this
    simpa [herase] using this.sublist (hsub2.map _)

theorem lruk_inv_evict (r : LRUK.Replacer) (hInv : LRUK.Inv r) :
    LRUK.Inv (LRUK.evict r).2 := by
  by_cases h0 : r.evictSize ≠ 0
  · rcases hhv : (if ¬r.history.isEmpty then LRUK.historyVictim r.history
        else none) with _ | n
    · rcases hcv : (if ¬r.cache.isEmpty then LRUK.cacheVictim r.k r.cache
          else none) with _ | f
      · have he : (LRUK.evict r).2 = r := by
          simp only [LRUK.evict]
          rw [if_pos h0, hhv, hcv]
        rw [he]
        exact hInv
      · have hcb : LRUK.cacheVictim r.k r.cache = some f := by
          by_cases hce : ¬r.cache.isEmpty
          · rw [if_pos hce] at hcv
            exact hcv
          · rw [if_neg hce] at hcv
            exact absurd hcv (by simp)
        obtain ⟨v, hv, hve, hvf, _⟩ := lruk_cacheVictim_node r.k r.cache f hcb
        have he : (LRUK.evict r).2
            = { r with cache := LRUK.removeNode r.cache f,
                       evictSize := r.evictSize - 1,
                       currSize := r.currSize - 1 } := by
          simp only [LRUK.evict]
          rw [if_pos h0, hhv, hcv]
        rw [he, ← hvf]
        exact lruk_inv_removeCache r hInv v hv hve
    · have hhb : LRUK.historyVictim r.history = some n := by
        by_cases hhe : ¬r.history.isEmpty
        · rw [if_pos hhe] at hhv
          exact hhv
        · rw [if_neg hhe] at hhv
          exact absurd hhv (by simp)
      obtain ⟨hmem, hne, _⟩ := lruk_historyVictim_node r.history n hInv.sorted hhb
      have he : (LRUK.evict r).2
          = { r with history := LRUK.removeNode r.history n.frameId,
                     evictSize := r.evictSize - 1,
                     currSize := r.currSize - 1 } := by
        simp only [LRUK.evict]
        rw [if_pos h0, hhv]
      rw [he]
      exact lruk_inv_removeHistory r hInv n hmem hne
  · have he : (LRUK.evict r).2 = r := by
      simp only [LRUK.evict]
      rw [if_neg h0]
    rw [he]
    exact hInv


theorem lruk_nodup_shuffle {α : Type} (A B C : List α) (f : α)
    (h : (A ++ f :: (B ++ C)).Nodup) : (A ++ (B ++ f :: C)).Nodup := by
  have p1 : (A ++ f :: (B ++ C)).Perm (f :: (A ++ (B ++ C))) :=
    List.perm_middle
  have p2 : (f :: ((A ++ B) ++ C)).Perm ((A ++ B) ++ f :: C) :=
    List.perm_middle.symm
  have p2b : (f :: (A ++ (B ++ C))).Perm (A ++ (B ++ f :: C)) := by
    simpa [List.append_assoc] using p2
  exact (p1.trans p2b).nodup h

theorem lruk_headD_append (l : List Nat) (t : Nat) (h : l ≠ []) :
    (l ++ [t]).headD 0 = l.headD 0 := by
  cases l with
  | nil => exact absurd rfl h
  | cons a rest => rfl

theorem lruk_pairwise_replace (l1 l2 : List LRUK.RNode) (a b : LRUK.RNode)
    (hE : b.earliestAccess = a.earliestAccess)
    (h : List.Pairwise (fun x y => y.earliestAccess < x.earliestAccess)
      (l1 ++ a :: l2)) :
    List.Pairwise (fun x y => y.earliestAccess < x.earliestAccess)
      (l1 ++ b :: l2) := by
  rw [List.pairwise_append] at h ⊢
  obtain ⟨h1, h2, h3⟩ := h
  rw [List.pairwise_cons] at h2 ⊢
  refine ⟨h1, ⟨fun m hm => ?_, h2.2⟩, fun x hx y hy => ?_⟩
  · rw [hE]
    exact h2.1 m hm
  · rcases List.mem_cons.mp hy with h4 | h4
    · subst h4
      rw [hE]
      exact h3 x hx a (List.mem_cons_self _ _)
    · exact h3 x hx y (List.mem_cons_of_mem _ h4)

theorem lruk_inv_init (numFrames k : Nat) (hk : 1 ≤ k) :
    LRUK.Inv (LRUK.Replacer.init numFrames k) := by
  refine ⟨hk, ?_, ?_, ?_, ?_, ?_, ?_, ?_, ?_⟩ <;>
    simp [LRUK.Replacer.init]

theorem lruk_inv_insertFresh (r : LRUK.Replacer) (hInv : LRUK.Inv r) (f : Int)
    (hn1 : LRUK.findNode r.history f = none)
    (hn2 : LRUK.findNode r.cache f = none) :
    LRUK.Inv (LRUK.insertFresh f r) := by
  have hh := lruk_findNode_none f r.history hn1
  have hc := lruk_findNode_none f r.cache hn2
  by_cases hki : 1 < r.k
  · have he : LRUK.insertFresh f r
        = { r with
            currentTimestamp := r.currentTimestamp + 1,
            currSize := r.currSize + 1,
            history := (⟨f, [r.currentTimestamp], false⟩ : LRUK.RNode)
              :: r.history } := by
      simp [LRUK.insertFresh, hki]
    rw [he]
    refine ⟨hInv.hk, ?_, ?_, hInv.cacheLo, ?_, ?_, ?_, ?_, ?_⟩
    · intro n hn
      rcases List.mem_cons.mp hn with h1 | h1
      · rw [h1]
        simp [LRUK.RNode.accessCount]
      · exact hInv.histLo n h1
    · intro n hn
      rcases List.mem_cons.mp hn with h1 | h1
      · rw [h1]
        simpa [LRUK.RNode.accessCount] using hki
      · exact hInv.histHi n h1
    · show r.evictSize = _
      rw [hInv.evictEq]
      simp [List.countP_cons]
    · intro n hn hne
      rcases List.mem_append.mp hn with h1 | h1
      · rcases List.mem_cons.mp h1 with h2 | h2
        · rw [h2] at hne
          simp at hne
        · exact hInv.evictPos n (List.mem_append_left _ h2) hne
      · exact hInv.evictPos n (List.mem_append_right _ h1) hne
    · refine List.pairwise_cons.mpr ⟨?_, hInv.sorted⟩
      intro m hm
      simpa [LRUK.RNode.earliestAccess] using hInv.tsLt m hm
    · intro n hn
      rcases List.mem_cons.mp hn with h1 | h1
      · rw [h1]
        simp [LRUK.RNode.earliestAccess]
      · exact Nat.lt_trans (hInv.tsLt n h1) (Nat.lt_succ_self _)
    · show (((⟨f, [r.currentTimestamp], false⟩ : LRUK.RNode)
          :: r.history ++ r.cache).map (fun n => n.frameId)).Nodup
      rw [List.cons_append, List.map_cons]
      refine List.nodup_cons.mpr ⟨?_, hInv.fidNodup⟩
      intro hmem
      obtain ⟨m, hm, hmf⟩ := List.mem_map.mp hmem
      rcases List.mem_append.mp hm with h1 | h1
      · exact hh m h1 hmf
      · exact hc m h1 hmf
  · have he : LRUK.insertFresh f r
        = { r with
            currentTimestamp := r.currentTimestamp + 1,
            currSize := r.currSize + 1,
            cache := (⟨f, [r.currentTimestamp], false⟩ : LRUK.RNode)
              :: r.cache } := by
      simp [LRUK.insertFresh, hki]
    rw [he]
    refine ⟨hInv.hk, hInv.histLo, hInv.histHi, ?_, ?_, ?_, hInv.sorted, ?_, ?_⟩
    · intro n hn
      rcases List.mem_cons.mp hn with h1 | h1
      · rw [h1]
        have : r.k ≤ 1 := Nat.le_of_not_lt hki
        simpa [LRUK.RNode.accessCount] using this
      · exact hInv.cacheLo n h1
    · show r.evictSize = _
      rw [hInv.evictEq]
      simp [List.countP_cons, List.countP_append]
    · intro n hn hne
      rcases List.mem_append.mp hn with h1 | h1
      · exact hInv.evictPos n (List.mem_append_left _ h1) hne
      · rcases List.mem_cons.mp h1 with h2 | h2
        · rw [h2] at hne
          simp at hne
        · exact hInv.evictPos n (List.mem_append_right _ h2) hne
    · intro n hn
      exact Nat.lt_trans (hInv.tsLt n hn) (Nat.lt_succ_self _)
    · have h2 : (r.history ++ (⟨f, [r.currentTimestamp], false⟩ : LRUK.RNode)
          :: r.cache).map (fun n => n.frameId)
          = (r.history.map (fun n => n.frameId)) ++ f ::
            (r.cache.map (fun n => n.frameId)) := by
        simp
      rw [h2]
      rw [List.nodup_middle]
      refine List.nodup_cons.mpr ⟨?_, by simpa using hInv.fidNodup⟩
      intro hmem
      rw [← List.map_append] at hmem
      obtain ⟨m, hm, hmf⟩ := List.mem_map.mp hmem
      rcases List.mem_append.mp hm with h1 | h1
      · exact hh m h1 hmf
      · exact hc m h1 hmf


theorem lruk_map_if_decomp (g : LRUK.RNode → LRUK.RNode) (f : Int)
    (l1 l2 : List LRUK.RNode) (n : LRUK.RNode) (hnf : n.frameId = f)
    (h1 : ∀ m ∈ l1, m.frameId ≠ f) (h2 : ∀ m ∈ l2, m.frameId ≠ f) :
    (l1 ++ n :: l2).map (fun m => if m.frameId = f then g m else m)
      = l1 ++ g n :: l2 := by
  rw [List.map_append, List.map_cons, if_pos hnf]
  have e1 : ∀ m ∈ l1, (if m.frameId = f then g m else m) = m :=
    fun m hm => if_neg (h1 m hm)
  have e2 : ∀ m ∈ l2, (if m.frameId = f then g m else m) = m :=
    fun m hm => if_neg (h2 m hm)
  rw [List.map_congr_left e1, List.map_congr_left e2]
  simp

theorem lruk_evict_sublists (r : LRUK.Replacer) :
    (LRUK.evict r).2.history.Sublist r.history ∧
    (LRUK.evict r).2.cache.Sublist r.cache := by
  by_cases h0 : r.evictSize ≠ 0
  · rcases hhv : (if ¬r.history.isEmpty then LRUK.historyVictim r.history
        else none) with _ | n
    · rcases hcv : (if ¬r.cache.isEmpty then LRUK.cacheVictim r.k r.cache
          else none) with _ | f
      · have he : (LRUK.evict r).2 = r := by
          simp only [LRUK.evict]
          rw [if_pos h0, hhv, hcv]
        rw [he]
        exact ⟨List.Sublist.refl _, List.Sublist.refl _⟩
      · have he : (LRUK.evict r).2
            = { r with cache := LRUK.removeNode r.cache f,
                       evictSize := r.evictSize - 1,
                       currSize := r.currSize - 1 } := by
          simp only [LRUK.evict]
          rw [if_pos h0, hhv, hcv]
        rw [he]
        exact ⟨List.Sublist.refl _, List.eraseP_sublist _⟩
    · have he : (LRUK.evict r).2
          = { r with history := LRUK.removeNode r.history n.frameId,
                     evictSize := r.evictSize - 1,
                     currSize := r.currSize - 1 } := by
        simp only [LRUK.evict]
        rw [if_pos h0, hhv]
      rw [he]
      exact ⟨List.eraseP_sublist _, List.Sublist.refl _⟩
  · have he : (LRUK.evict r).2 = r := by
      simp only [LRUK.evict]
      rw [if_neg h0]
    rw [he]
    exact ⟨List.Sublist.refl _, List.Sublist.refl _⟩


theorem lruk_inv_migrate (r : LRUK.Replacer) (hInv : LRUK.Inv r)
    (n : LRUK.RNode)
    (hf1 : LRUK.findNode r.history n.frameId = some n)
    (hmig : r.k ≤ n.timestamps.length + 1) :
    LRUK.Inv { r with
      currentTimestamp := r.currentTimestamp + 1,
      history := LRUK.removeNode r.history n.frameId,
      cache := ({ n with timestamps := n.timestamps ++ [r.currentTimestamp] }
        : LRUK.RNode) :: r.cache } := by
  obtain ⟨-, l1, l2, he, hl1⟩ := lruk_findNode_decomp n.frameId r.history n hf1
  have hnod := hInv.fidNodup
  rw [he] at hnod
  have hnod2 : ((l1.map (fun m => m.frameId)) ++ n.frameId ::
      (l2.map (fun m => m.frameId) ++ r.cache.map (fun m => m.frameId))).Nodup := by
    simpa [List.append_assoc] using hnod
  have hnotin := (List.nodup_cons.mp (List.nodup_middle.mp hnod2)).1
  have hmemn : n ∈ r.history := by
    rw [he]
    exact List.mem_append_right _ (List.mem_cons_self _ _)
  have herase : LRUK.removeNode r.history n.frameId = l1 ++ l2 := by
    rw [LRUK.removeNode, he]
    exact lruk_erase_decomp _ l1 n l2 (fun m hm => by simp [hl1 m hm]) (by simp)
  have hsubmem : ∀ m ∈ l1 ++ l2, m ∈ r.history := by
    intro m hm
    rw [he]
    rcases List.mem_append.mp hm with h | h
    · exact List.mem_append_left _ h
    · exact List.mem_append_right _ (List.mem_cons_of_mem _ h)
  rw [herase]
  refine ⟨hInv.hk, ?_, ?_, ?_, ?_, ?_, ?_, ?_, ?_⟩
  · intro m hm
    exact hInv.histLo m (hsubmem m hm)
  · intro m hm
    exact hInv.histHi m (hsubmem m hm)
  · intro m hm
    rcases List.mem_cons.mp hm with h1 | h1
    · rw [h1]
      show r.k ≤ (n.timestamps ++ [r.currentTimestamp]).length
      simpa using hmig
    · exact hInv.cacheLo m h1
  · show r.evictSize = _
    have hold := hInv.evictEq
    rw [he] at hold
    simp only [List.countP_append, List.countP_cons] at hold ⊢
    cases hbe : n.evictable <;> simp [hbe] at hold ⊢ <;> omega
  · intro m hm hme
    rcases List.mem_append.mp hm with h1 | h1
    · exact hInv.evictPos m (List.mem_append_left _ (hsubmem m h1)) hme
    · rcases List.mem_cons.mp h1 with h2 | h2
      · subst h2
        simp only at hme
        show (0 : Int) ≤ n.frameId
        exact hInv.evictPos n (List.mem_append_left _ hmemn) hme
      · exact hInv.evictPos m (List.mem_append_right _ h2) hme
  · have hs := hInv.sorted
    rw [he] at hs
    exact hs.sublist (List.Sublist.append_left (List.sublist_cons_self n l2) l1)
  · intro m hm
    exact Nat.lt_trans (hInv.tsLt m (hsubmem m hm)) (Nat.lt_succ_self _)
  · show (((l1 ++ l2) ++ _ :: r.cache).map (fun m => m.frameId)).Nodup
    have := lruk_nodup_shuffle (l1.map (fun m => m.frameId))
      (l2.map (fun m => m.frameId)) (r.cache.map (fun m => m.frameId))
      n.frameId hnod2
    simpa [List.append_assoc] using this


theorem lruk_inv_touchHist (r : LRUK.Replacer) (hInv : LRUK.Inv r)
    (n : LRUK.RNode)
    (hf1 : LRUK.findNode r.history n.frameId = some n)
    (hlt : n.timestamps.length + 1 < r.k) :
    LRUK.Inv { r with
      currentTimestamp := r.currentTimestamp + 1,
      history := LRUK.touchNode n.frameId r.currentTimestamp r.history } := by
  obtain ⟨-, l1, l2, he, hl1⟩ := lruk_findNode_decomp n.frameId r.history n hf1
  have hnod := hInv.fidNodup
  rw [he] at hnod
  have hnod2 : ((l1.map (fun m => m.frameId)) ++ n.frameId ::
      (l2.map (fun m => m.frameId) ++ r.cache.map (fun m => m.frameId))).Nodup := by
    simpa [List.append_assoc] using hnod
  have hnotin := (List.nodup_cons.mp (List.nodup_middle.mp hnod2)).1
  have hl2 : ∀ m ∈ l2, m.frameId ≠ n.frameId := by
    intro m hm hfe
    exact hnotin (List.mem_append_right _ (List.mem_append_left _
      (hfe ▸ List.mem_map_of_mem _ hm)))
  have hmemn : n ∈ r.history := by
    rw [he]
    exact List.mem_append_right _ (List.mem_cons_self _ _)
  have hnets : n.timestamps ≠ [] := by
    have h1 := hInv.histLo n hmemn
    exact List.length_pos.mp h1
  have htouch : LRUK.touchNode n.frameId r.currentTimestamp r.history
      = l1 ++ ({ n with timestamps := n.timestamps ++ [r.currentTimestamp] }
        : LRUK.RNode) :: l2 := by
    rw [LRUK.touchNode, he]
    exact lruk_map_if_decomp _ n.frameId l1 l2 n rfl hl1 hl2
  have hEq : ({ n with timestamps := n.timestamps ++ [r.currentTimestamp] }
      : LRUK.RNode).earliestAccess = n.earliestAccess := by
    show (n.timestamps ++ [r.currentTimestamp]).headD 0 = n.timestamps.headD 0
    exact lruk_headD_append n.timestamps r.currentTimestamp hnets
  rw [htouch]
  refine ⟨hInv.hk, ?_, ?_, hInv.cacheLo, ?_, ?_, ?_, ?_, ?_⟩
  · intro m hm
    rcases List.mem_append.mp hm with h1 | h1
    · exact hInv.histLo m (by rw [he]; exact List.mem_append_left _ h1)
    · rcases List.mem_cons.mp h1 with h2 | h2
      · rw [h2]
        show 1 ≤ (n.timestamps ++ [r.currentTimestamp]).length
        simp
      · exact hInv.histLo m (by
          rw [he]
          exact List.mem_append_right _ (List.mem_cons_of_mem _ h2))
  · intro m hm
    rcases List.mem_append.mp hm with h1 | h1
    · exact hInv.histHi m (by rw [he]; exact List.mem_append_left _ h1)
    · rcases List.mem_cons.mp h1 with h2 | h2
      · rw [h2]
        show (n.timestamps ++ [r.currentTimestamp]).length < r.k
        simpa using hlt
      · exact hInv.histHi m (by
          rw [he]
          exact List.mem_append_right _ (List.mem_cons_of_mem _ h2))
  · show r.evictSize = _
    have hold := hInv.evictEq
    rw [he] at hold
    simp only [List.countP_append, List.countP_cons] at hold ⊢
    cases hbe : n.evictable <;> simp [hbe] at hold ⊢ <;> omega
  · intro m hm hme
    rcases List.mem_append.mp hm with h1 | h1
    · rcases List.mem_append.mp h1 with h2 | h2
      · exact hInv.evictPos m
          (List.mem_append_left _ (by rw [he]; exact List.mem_append_left _ h2)) hme
      · rcases List.mem_cons.mp h2 with h3 | h3
        · subst h3
          simp only at hme
          show (0 : Int) ≤ n.frameId
          exact hInv.evictPos n (List.mem_append_left _ hmemn) hme
        · exact hInv.evictPos m (List.mem_append_left _ (by
            rw [he]
            exact List.mem_append_right _ (List.mem_cons_of_mem _ h3))) hme
    · exact hInv.evictPos m (List.mem_append_right _ h1) hme
  · have hs := hInv.sorted
    rw [he] at hs
    exact lruk_pairwise_replace l1 l2 n _ hEq hs
  · intro m hm
    rcases List.mem_append.mp hm with h1 | h1
    · exact Nat.lt_trans (hInv.tsLt m (by rw [he]; exact List.mem_append_left _ h1))
        (Nat.lt_succ_self _)
    · rcases List.mem_cons.mp h1 with h2 | h2
      · rw [h2, hEq]
        exact Nat.lt_trans (hInv.tsLt n hmemn) (Nat.lt_succ_self _)
      · exact Nat.lt_trans (hInv.tsLt m (by
          rw [he]
          exact List.mem_append_right _ (List.mem_cons_of_mem _ h2)))
          (Nat.lt_succ_self _)
  · show (((l1 ++ _ :: l2) ++ r.cache).map (fun m => m.frameId)).Nodup
    simpa [List.append_assoc] using hnod2

theorem lruk_inv_touchCache (r : LRUK.Replacer) (hInv : LRUK.Inv r)
    (n : LRUK.RNode)
    (hf2 : LRUK.findNode r.cache n.frameId = some n) :
    LRUK.Inv { r with
      cache := LRUK.touchNode n.frameId r.currentTimestamp r.cache,
      currentTimestamp := r.currentTimestamp + 1 } := by
  obtain ⟨-, l1, l2, he, hl1⟩ := lruk_findNode_decomp n.frameId r.cache n hf2
  have hnod := hInv.fidNodup
  rw [he] at hnod
  have hnod2 : (((r.history.map (fun m => m.frameId)) ++ l1.map (fun m => m.frameId))
      ++ n.frameId :: l2.map (fun m => m.frameId)).Nodup := by
    simpa [List.append_assoc] using hnod
  have hnotin := (List.nodup_cons.mp (List.nodup_middle.mp hnod2)).1
  have hl2 : ∀ m ∈ l2, m.frameId ≠ n.frameId := by
    intro m hm hfe
    exact hnotin (List.mem_append_right _ (hfe ▸ List.mem_map_of_mem _ hm))
  have hmemn : n ∈ r.cache := by
    rw [he]
    exact List.mem_append_right _ (List.mem_cons_self _ _)
  have htouch : LRUK.touchNode n.frameId r.currentTimestamp r.cache
      = l1 ++ ({ n with timestamps := n.timestamps ++ [r.currentTimestamp] }
        : LRUK.RNode) :: l2 := by
    rw [LRUK.touchNode, he]
    exact lruk_map_if_decomp _ n.frameId l1 l2 n rfl hl1 hl2
  rw [htouch]
  refine ⟨hInv.hk, hInv.histLo, hInv.histHi, ?_, ?_, ?_, hInv.sorted, ?_, ?_⟩
  · intro m hm
    rcases List.mem_append.mp hm with h1 | h1
    · exact hInv.cacheLo m (by rw [he]; exact List.mem_append_left _ h1)
    · rcases List.mem_cons.mp h1 with h2 | h2
      · rw [h2]
        show r.k ≤ (n.timestamps ++ [r.currentTimestamp]).length
        have h4 := hInv.cacheLo n hmemn
        simp only [LRUK.RNode.accessCount] at h4
        simp only [List.length_append, List.length_cons, List.length_nil]
        omega
      · exact hInv.cacheLo m (by
          rw [he]
          exact List.mem_append_right _ (List.mem_cons_of_mem _ h2))
  · show r.evictSize = _
    have hold := hInv.evictEq
    rw [he] at hold
    simp only [List.countP_append, List.countP_cons] at hold ⊢
    cases hbe : n.evictable <;> simp [hbe] at hold ⊢ <;> omega
  · intro m hm hme
    rcases List.mem_append.mp hm with h1 | h1
    · exact hInv.evictPos m (List.mem_append_left _ h1) hme
    · rcases List.mem_append.mp h1 with h2 | h2
      · exact hInv.evictPos m
          (List.mem_append_right _ (by rw [he]; exact List.mem_append_left _ h2)) hme
      · rcases List.mem_cons.mp h2 with h3 | h3
        · subst h3
          simp only at hme
          show (0 : Int) ≤ n.frameId
          exact hInv.evictPos n (List.mem_append_right _ hmemn) hme
        · exact hInv.evictPos m (List.mem_append_right _ (by
            rw [he]
            exact List.mem_append_right _ (List.mem_cons_of_mem _ h3))) hme
  · intro m hm
    exact Nat.lt_trans (hInv.tsLt m hm) (Nat.lt_succ_self _)
  · show ((r.history ++ (l1 ++ _ :: l2)).map (fun m => m.frameId)).Nodup
    simpa [List.append_assoc] using hnod2


theorem lruk_inv_record (r : LRUK.Replacer) (hInv : LRUK.Inv r) (f : Int) :
    LRUK.Inv (LRUK.recordAccess f r) := by
  rcases hf1 : LRUK.findNode r.history f with _ | n
  · rcases hf2 : LRUK.findNode r.cache f with _ | n
    · by_cases hcap : r.currSize < r.replacerSize
      · have he2 : LRUK.recordAccess f r = LRUK.insertFresh f r := by
          simp [LRUK.recordAccess, hf1, hf2, hcap]
        rw [he2]
        exact lruk_inv_insertFresh r hInv f hf1 hf2
      · rcases hev : LRUK.evict r with ⟨o, r2⟩
        have hr2 : LRUK.Inv r2 := by
          have h3 := lruk_inv_evict r hInv
          rw [hev] at h3
          exact h3
        have hsubs := lruk_evict_sublists r
        rw [hev] at hsubs
        have hh2 : LRUK.findNode r2.history f = none := by
          apply List.find?_eq_none.mpr
          intro m hm
          simpa using lruk_findNode_none f r.history hf1 m (hsubs.1.subset hm)
        have hc2 : LRUK.findNode r2.cache f = none := by
          apply List.find?_eq_none.mpr
          intro m hm
          simpa using lruk_findNode_none f r.cache hf2 m (hsubs.2.subset hm)
        cases o with
        | some v =>
            have he2 : LRUK.recordAccess f r = LRUK.insertFresh f r2 := by
              simp [LRUK.recordAccess, hf1, hf2, hcap, hev]
            rw [he2]
            exact lruk_inv_insertFresh r2 hr2 f hh2 hc2
        | none =>
            have he2 : LRUK.recordAccess f r = r2 := by
              simp [LRUK.recordAccess, hf1, hf2, hcap, hev]
            rw [he2]
            exact hr2
    · have hnf : n.frameId = f :=
        (lruk_findNode_decomp f r.cache n hf2).1
      subst hnf
      have he2 : LRUK.recordAccess n.frameId r
          = { r with
              cache := LRUK.touchNode n.frameId r.currentTimestamp r.cache,
              currentTimestamp := r.currentTimestamp + 1 } := by
        simp [LRUK.recordAccess, hf1, hf2]
      rw [he2]
      exact lruk_inv_touchCache r hInv n hf2
  · have hnf : n.frameId = f :=
      (lruk_findNode_decomp f r.history n hf1).1
    subst hnf
    by_cases hmig : r.k ≤ n.timestamps.length + 1
    · have he2 : LRUK.recordAccess n.frameId r
          = { r with
              currentTimestamp := r.currentTimestamp + 1,
              history := LRUK.removeNode r.history n.frameId,
              cache := ({ n with
                timestamps := n.timestamps ++ [r.currentTimestamp] }
                : LRUK.RNode) :: r.cache } := by
        simp [LRUK.recordAccess, hf1, hmig]
      rw [he2]
      exact lruk_inv_migrate r hInv n hf1 hmig
    · have he2 : LRUK.recordAccess n.frameId r
          = { r with
              currentTimestamp := r.currentTimestamp + 1,
              history := LRUK.touchNode n.frameId r.currentTimestamp
                r.history } := by
        simp [LRUK.recordAccess, hf1, hmig]
      rw [he2]
      exact lruk_inv_touchHist r hInv n hf1 (by omega)


theorem lruk_inv_flipHist (r : LRUK.Replacer) (hInv : LRUK.Inv r)
    (n : LRUK.RNode) (b : Bool)
    (hf1 : LRUK.findNode r.history n.frameId = some n)
    (hpos : (0 : Int) ≤ n.frameId) :
    LRUK.Inv { r with
      history := r.history.map fun m =>
        if m.frameId = n.frameId then { m with evictable := b } else m,
      evictSize :=
        if b ∧ ¬n.evictable then r.evictSize + 1
        else if ¬b ∧ n.evictable then r.evictSize - 1
        else r.evictSize } := by
  obtain ⟨-, l1, l2, he, hl1⟩ := lruk_findNode_decomp n.frameId r.history n hf1
  have hnod := hInv.fidNodup
  rw [he] at hnod
  have hnod2 : ((l1.map (fun m => m.frameId)) ++ n.frameId ::
      (l2.map (fun m => m.frameId) ++ r.cache.map (fun m => m.frameId))).Nodup := by
    simpa [List.append_assoc] using hnod
  have hnotin := (List.nodup_cons.mp (List.nodup_middle.mp hnod2)).1
  have hl2 : ∀ m ∈ l2, m.frameId ≠ n.frameId := by
    intro m hm hfe
    exact hnotin (List.mem_append_right _ (List.mem_append_left _
      (hfe ▸ List.mem_map_of_mem _ hm)))
  have hmemn : n ∈ r.history := by
    rw [he]
    exact List.mem_append_right _ (List.mem_cons_self _ _)
  have hmap : (r.history.map fun m =>
      if m.frameId = n.frameId then { m with evictable := b } else m)
      = l1 ++ ({ n with evictable := b } : LRUK.RNode) :: l2 := by
    rw [he]
    exact lruk_map_if_decomp _ n.frameId l1 l2 n rfl hl1 hl2
  rw [hmap]
  have hsubmem : ∀ m, m ∈ l1 ++ ({ n with evictable := b } : LRUK.RNode) :: l2 →
      m = ({ n with evictable := b } : LRUK.RNode) ∨ m ∈ r.history := by
    intro m hm
    rcases List.mem_append.mp hm with h1 | h1
    · exact Or.inr (by rw [he]; exact List.mem_append_left _ h1)
    · rcases List.mem_cons.mp h1 with h2 | h2
      · exact Or.inl h2
      · exact Or.inr (by
          rw [he]
          exact List.mem_append_right _ (List.mem_cons_of_mem _ h2))
  refine ⟨hInv.hk, ?_, ?_, hInv.cacheLo, ?_, ?_, ?_, ?_, ?_⟩
  · intro m hm
    rcases hsubmem m hm with h1 | h1
    · rw [h1]
      exact hInv.histLo n hmemn
    · exact hInv.histLo m h1
  · intro m hm
    rcases hsubmem m hm with h1 | h1
    · rw [h1]
      exact hInv.histHi n hmemn
    · exact hInv.histHi m h1
  · show (if b ∧ ¬n.evictable then r.evictSize + 1
        else if ¬b ∧ n.evictable then r.evictSize - 1
        else r.evictSize) = _
    have hold := hInv.evictEq
    rw [he] at hold
    simp only [List.countP_append, List.countP_cons] at hold ⊢
    cases b <;> cases hbe : n.evictable <;> simp [hbe] at hold ⊢ <;> omega
  · intro m hm hme
    rcases List.mem_append.mp hm with h1 | h1
    · rcases hsubmem m h1 with h2 | h2
      · rw [h2]
        exact hpos
      · exact hInv.evictPos m (List.mem_append_left _ h2) hme
    · exact hInv.evictPos m (List.mem_append_right _ h1) hme
  · have hs := hInv.sorted
    rw [he] at hs
    exact lruk_pairwise_replace l1 l2 n _ rfl hs
  · intro m hm
    rcases hsubmem m hm with h1 | h1
    · rw [h1]
      exact hInv.tsLt n hmemn
    · exact hInv.tsLt m h1
  · show (((l1 ++ _ :: l2) ++ r.cache).map (fun m => m.frameId)).Nodup
    simpa [List.append_assoc] using hnod2

theorem lruk_inv_flipCache (r : LRUK.Replacer) (hInv : LRUK.Inv r)
    (n : LRUK.RNode) (b : Bool)
    (hf2 : LRUK.findNode r.cache n.frameId = some n)
    (hpos : (0 : Int) ≤ n.frameId) :
    LRUK.Inv { r with
      cache := r.cache.map fun m =>
        if m.frameId = n.frameId then { m with evictable := b } else m,
      evictSize :=
        if b ∧ ¬n.evictable then r.evictSize + 1
        else if ¬b ∧ n.evictable then r.evictSize - 1
        else r.evictSize } := by
  obtain ⟨-, l1, l2, he, hl1⟩ := lruk_findNode_decomp n.frameId r.cache n hf2
  have hnod := hInv.fidNodup
  rw [he] at hnod
  have hnod2 : (((r.history.map (fun m => m.frameId)) ++ l1.map (fun m => m.frameId))
      ++ n.frameId :: l2.map (fun m => m.frameId)).Nodup := by
    simpa [List.append_assoc] using hnod
  have hnotin := (List.nodup_cons.mp (List.nodup_middle.mp hnod2)).1
  have hl2 : ∀ m ∈ l2, m.frameId ≠ n.frameId := by
    intro m hm hfe
    exact hnotin (List.mem_append_right _ (hfe ▸ List.mem_map_of_mem _ hm))
  have hmemn : n ∈ r.cache := by
    rw [he]
    exact List.mem_append_right _ (List.mem_cons_self _ _)
  have hmap : (r.cache.map fun m =>
      if m.frameId = n.frameId then { m with evictable := b } else m)
      = l1 ++ ({ n with evictable := b } : LRUK.RNode) :: l2 := by
    rw [he]
    exact lruk_map_if_decomp _ n.frameId l1 l2 n rfl hl1 hl2
  rw [hmap]
  have hsubmem : ∀ m, m ∈ l1 ++ ({ n with evictable := b } : LRUK.RNode) :: l2 →
      m = ({ n with evictable := b } : LRUK.RNode) ∨ m ∈ r.cache := by
    intro m hm
    rcases List.mem_append.mp hm with h1 | h1
    · exact Or.inr (by rw [he]; exact List.mem_append_left _ h1)
    · rcases List.mem_cons.mp h1 with h2 | h2
      · exact Or.inl h2
      · exact Or.inr (by
          rw [he]
          exact List.mem_append_right _ (List.mem_cons_of_mem _ h2))
  refine ⟨hInv.hk, hInv.histLo, hInv.histHi, ?_, ?_, ?_, hInv.sorted, hInv.tsLt, ?_⟩
  · intro m hm
    rcases hsubmem m hm with h1 | h1
    · rw [h1]
      exact hInv.cacheLo n hmemn
    · exact hInv.cacheLo m h1
  · show (if b ∧ ¬n.evictable then r.evictSize + 1
        else if ¬b ∧ n.evictable then r.evictSize - 1
        else r.evictSize) = _
    have hold := hInv.evictEq
    rw [he] at hold
    simp only [List.countP_append, List.countP_cons] at hold ⊢
    cases b <;> cases hbe : n.evictable <;> simp [hbe] at hold ⊢ <;> omega
  · intro m hm hme
    rcases List.mem_append.mp hm with h1 | h1
    · exact hInv.evictPos m (List.mem_append_left _ h1) hme
    · rcases hsubmem m h1 with h2 | h2
      · rw [h2]
        exact hpos
      · exact hInv.evictPos m (List.mem_append_right _ h2) hme
  · show ((r.history ++ (l1 ++ _ :: l2)).map (fun m => m.frameId)).Nodup
    simpa [List.append_assoc] using hnod2

theorem lruk_inv_setEv (r r2 : LRUK.Replacer) (hInv : LRUK.Inv r)
    (f : Int) (b : Bool) (h : LRUK.setEvictable f b r = some r2) :
    LRUK.Inv r2 := by
  by_cases hrange : f < 0 ∨ (r.replacerSize : Int) ≤ f
  · rw [LRUK.setEvictable, if_pos hrange] at h
    exact absurd h (by simp)
  · rw [LRUK.setEvictable, if_neg hrange] at h
    have hpos : (0 : Int) ≤ f := by
      push_neg at hrange
      exact hrange.1
    rcases hf1 : LRUK.findNode r.history f with _ | n
    · rw [hf1] at h
      rcases hf2 : LRUK.findNode r.cache f with _ | n
      · rw [hf2] at h
        have h2 : some r = some r2 := h
        injection h2 with h2
        rw [← h2]
        exact hInv
      · rw [hf2] at h
        have hnf := (lruk_findNode_decomp f r.cache n hf2).1
        subst hnf
        have h2 : some ({ r with
            cache := r.cache.map fun m =>
              if m.frameId = n.frameId then { m with evictable := b } else m,
            evictSize :=
              if b ∧ ¬n.evictable then r.evictSize + 1
              else if ¬b ∧ n.evictable then r.evictSize - 1
              else r.evictSize } : LRUK.Replacer) = some r2 := h
        injection h2 with h2
        rw [← h2]
        exact lruk_inv_flipCache r hInv n b hf2 hpos
    · rw [hf1] at h
      have hnf := (lruk_findNode_decomp f r.history n hf1).1
      subst hnf
      have h2 : some ({ r with
          history := r.history.map fun m =>
            if m.frameId = n.frameId then { m with evictable := b } else m,
          evictSize :=
            if b ∧ ¬n.evictable then r.evictSize + 1
            else if ¬b ∧ n.evictable then r.evictSize - 1
            else r.evictSize } : LRUK.Replacer) = some r2 := h
      injection h2 with h2
      rw [← h2]
      exact lruk_inv_flipHist r hInv n b hf1 hpos

theorem lruk_inv_remove (r r2 : LRUK.Replacer) (hInv : LRUK.Inv r)
    (f : Int) (h : LRUK.remove f r = some r2) : LRUK.Inv r2 := by
  rcases hf1 : LRUK.findNode r.history f with _ | n
  · rw [LRUK.remove, hf1] at h
    rcases hf2 : LRUK.findNode r.cache f with _ | n
    · rw [hf2] at h
      have h2 : some r = some r2 := h
      injection h2 with h2
      rw [← h2]
      exact hInv
    · rw [hf2] at h
      have hnf := (lruk_findNode_decomp f r.cache n hf2).1
      have hmem := List.mem_of_find?_eq_some hf2
      have h3 : (if n.evictable = true then
          some ({ r with
            cache := LRUK.removeNode r.cache f,
            evictSize := r.evictSize - 1,
            currSize := r.currSize - 1 } : LRUK.Replacer)
        else none) = some r2 := h
      by_cases hne : n.evictable
      · rw [if_pos hne] at h3
        injection h3 with h2
        rw [← h2, ← hnf]
        exact lruk_inv_removeCache r hInv n hmem hne
      · rw [if_neg hne] at h3
        exact absurd h3 (by simp)
  · rw [LRUK.remove, hf1] at h
    have hnf := (lruk_findNode_decomp f r.history n hf1).1
    have hmem := List.mem_of_find?_eq_some hf1
    have h3 : (if n.evictable = true then
        some ({ r with
          history := LRUK.removeNode r.history f,
          evictSize := r.evictSize - 1,
          currSize := r.currSize - 1 } : LRUK.Replacer)
      else none) = some r2 := h
    by_cases hne : n.evictable
    · rw [if_pos hne] at h3
      injection h3 with h2
      rw [← h2, ← hnf]
      exact lruk_inv_removeHistory r hInv n hmem hne
    · rw [if_neg hne] at h3
      exact absurd h3 (by simp)

theorem lruk_inv_reach (r : LRUK.Replacer) (h : LRUK.Reach r) : LRUK.Inv r := by
  induction h with
  | init numFrames k hk => exact lruk_inv_init numFrames k hk
  | record f r hr ih => exact lruk_inv_record r ih f
  | setEv f b r r2 hr hs ih => exact lruk_inv_setEv r r2 ih f b hs
  | rem f r r2 hr hs ih => exact lruk_inv_remove r r2 ih f hs
  | ev r hr ih => exact lruk_inv_evict r ih


theorem lruk_evict_eq_hist (r : LRUK.Replacer) (v : LRUK.RNode)
    (h0 : r.evictSize ≠ 0)
    (hg : (if ¬r.history.isEmpty then LRUK.historyVictim r.history else none)
      = some v) :
    (LRUK.evict r).1 = some v.frameId := by
  simp only [LRUK.evict]
  rw [if_pos h0, hg]

theorem lruk_evict_eq_cache (r : LRUK.Replacer) (f : Int)
    (h0 : r.evictSize ≠ 0)
    (hg : (if ¬r.history.isEmpty then LRUK.historyVictim r.history else none)
      = none)
    (hg2 : (if ¬r.cache.isEmpty then LRUK.cacheVictim r.k r.cache else none)
      = some f) :
    (LRUK.evict r).1 = some f := by
  simp only [LRUK.evict]
  rw [if_pos h0, hg, hg2]

/-- C2: in every reachable replacer state, `Evict` prefers the evictable
frame with fewer than `k` recorded accesses whose earliest access is oldest
(the history list, scanned from its tail); failing that it takes an
evictable frame whose K-th most recent access timestamp is smallest (the
cache list scan); and it reports no victim exactly when no evictable frame
exists. -/
theorem C2_evict_policy (r : LRUK.Replacer) (hr : LRUK.Reach r) :
    ((LRUK.evict r).1 = none ↔
      ∀ n ∈ r.history ++ r.cache, n.evictable = false) ∧
    ((∃ n ∈ r.history ++ r.cache, n.evictable = true ∧ n.accessCount < r.k) →
      ∃ v ∈ r.history ++ r.cache, v.evictable = true ∧ v.accessCount < r.k ∧
        (LRUK.evict r).1 = some v.frameId ∧
        ∀ m ∈ r.history ++ r.cache, m.evictable = true → m.accessCount < r.k →
          v.earliestAccess ≤ m.earliestAccess) ∧
    ((∀ n ∈ r.history ++ r.cache, n.evictable = true → r.k ≤ n.accessCount) →
      (∃ n ∈ r.history ++ r.cache, n.evictable = true) →
      ∃ v ∈ r.history ++ r.cache, v.evictable = true ∧ r.k ≤ v.accessCount ∧
        (LRUK.evict r).1 = some v.frameId ∧
        ∀ m ∈ r.history ++ r.cache, m.evictable = true →
          v.kthRecent r.k ≤ m.kthRecent r.k) := by
  have hInv := lruk_inv_reach r hr
  refine ⟨⟨?_, ?_⟩, ?_, ?_⟩
  · intro hev
    by_contra hcon
    push_neg at hcon
    obtain ⟨n, hn, hne⟩ := hcon
    have hne2 : n.evictable = true := by
      cases hq : n.evictable
      · exact absurd hq hne
      · rfl
    have h0 : r.evictSize ≠ 0 := by
      have hpos : 0 < (r.history ++ r.cache).countP (fun m => m.evictable) :=
        List.countP_pos_iff.mpr ⟨n, hn, by simp [hne2]⟩
      rw [hInv.evictEq]
      omega
    by_cases hhx : ∃ m ∈ r.history, m.evictable = true
    · obtain ⟨v, hfind⟩ := lruk_find_evictable r.history.reverse
        (by
          obtain ⟨m, hm, hme⟩ := hhx
          exact ⟨m, List.mem_reverse.mpr hm, hme⟩)
      have hgm : (if ¬r.history.isEmpty then LRUK.historyVictim r.history
          else none) = some v := by
        have hne3 : r.history ≠ [] := by
          obtain ⟨m, hm, _⟩ := hhx
          exact List.ne_nil_of_mem hm
        rw [if_pos (by simp [hne3])]
        exact hfind
      rw [lruk_evict_eq_hist r v h0 hgm] at hev
      exact absurd hev (by simp)
    · push_neg at hhx
      have hnc : n ∈ r.cache := by
        rcases List.mem_append.mp hn with h1 | h1
        · exact absurd hne2 (hhx n h1)
        · exact h1
      have hg1 : (if ¬r.history.isEmpty then LRUK.historyVictim r.history
          else none) = none := by
        by_cases hhe : r.history.isEmpty
        · rw [if_neg (by simp [hhe])]
        · rw [if_pos hhe]
          rw [LRUK.historyVictim]
          apply List.find?_eq_none.mpr
          intro m hm
          simpa using hhx m (List.mem_reverse.mp hm)
      rcases lruk_cacheScan_result r.k r.cache.reverse none
          with hsc | ⟨v, hv, hve, hsc⟩
      · obtain ⟨m, f, h5, _⟩ := lruk_cacheScan_le r.k r.cache.reverse none n
          (List.mem_reverse.mpr hnc) hne2
        rw [hsc] at h5
        exact absurd h5 (by simp)
      · have hvpos : (0 : Int) ≤ v.frameId :=
          hInv.evictPos v (List.mem_append_right _ (List.mem_reverse.mp hv)) hve
        have hcv : LRUK.cacheVictim r.k r.cache = some v.frameId := by
          rw [LRUK.cacheVictim, hsc]
          show (if v.frameId ≠ -1 then some v.frameId else none) = some v.frameId
          rw [if_pos (by omega)]
        have hg2 : (if ¬r.cache.isEmpty then LRUK.cacheVictim r.k r.cache
            else none) = some v.frameId := by
          rw [if_pos (by simp [List.ne_nil_of_mem hnc])]
          exact hcv
        rw [lruk_evict_eq_cache r v.frameId h0 hg1 hg2] at hev
        exact absurd hev (by simp)
  · intro hall
    have h00 : r.evictSize = 0 := by
      rw [hInv.evictEq]
      apply List.countP_eq_zero.mpr
      intro m hm
      simp [hall m hm]
    simp only [LRUK.evict]
    rw [if_neg (by omega)]
  · intro hexx
    obtain ⟨n, hn, hne, hcnt⟩ := hexx
    have hnh : n ∈ r.history := by
      rcases List.mem_append.mp hn with h1 | h1
      · exact h1
      · have h2 := hInv.cacheLo n h1
        omega
    have h0 : r.evictSize ≠ 0 := by
      have hpos : 0 < (r.history ++ r.cache).countP (fun m => m.evictable) :=
        List.countP_pos_iff.mpr ⟨n, hn, by simp [hne]⟩
      rw [hInv.evictEq]
      omega
    obtain ⟨v, hfind⟩ := lruk_find_evictable r.history.reverse
      ⟨n, List.mem_reverse.mpr hnh, hne⟩
    obtain ⟨hvm, hve, hmin⟩ := lruk_historyVictim_node r.history v hInv.sorted hfind
    have hgm : (if ¬r.history.isEmpty then LRUK.historyVictim r.history
        else none) = some v := by
      rw [if_pos (by simp [List.ne_nil_of_mem hnh])]
      exact hfind
    refine ⟨v, List.mem_append_left _ hvm, hve, hInv.histHi v hvm,
      lruk_evict_eq_hist r v h0 hgm, ?_⟩
    intro m hm hme hmc
    have hmh : m ∈ r.history := by
      rcases List.mem_append.mp hm with h1 | h1
      · exact h1
      · have h2 := hInv.cacheLo m h1
        omega
    exact hmin m hmh hme
  · intro hall hex
    obtain ⟨n, hn, hne⟩ := hex
    have hhx : ∀ m ∈ r.history, ¬ m.evictable = true := by
      intro m hm hme
      have h1 := hall m (List.mem_append_left _ hm) hme
      have h2 := hInv.histHi m hm
      omega
    have hnc : n ∈ r.cache := by
      rcases List.mem_append.mp hn with h1 | h1
      · exact absurd hne (hhx n h1)
      · exact h1
    have h0 : r.evictSize ≠ 0 := by
      have hpos : 0 < (r.history ++ r.cache).countP (fun m => m.evictable) :=
        List.countP_pos_iff.mpr ⟨n, hn, by simp [hne]⟩
      rw [hInv.evictEq]
      omega
    have hg1 : (if ¬r.history.isEmpty then LRUK.historyVictim r.history
        else none) = none := by
      by_cases hhe : r.history.isEmpty
      · rw [if_neg (by simp [hhe])]
      · rw [if_pos hhe]
        rw [LRUK.historyVictim]
        apply List.find?_eq_none.mpr
        intro m hm
        simpa using hhx m (List.mem_reverse.mp hm)
    rcases lruk_cacheScan_result r.k r.cache.reverse none
        with hsc | ⟨v, hv, hve, hsc⟩
    · obtain ⟨m, f, h5, _⟩ := lruk_cacheScan_le r.k r.cache.reverse none n
        (List.mem_reverse.mpr hnc) hne
      rw [hsc] at h5
      exact absurd h5 (by simp)
    · have hvpos : (0 : Int) ≤ v.frameId :=
        hInv.evictPos v (List.mem_append_right _ (List.mem_reverse.mp hv)) hve
      have hcv : LRUK.cacheVictim r.k r.cache = some v.frameId := by
        rw [LRUK.cacheVictim, hsc]
        show (if v.frameId ≠ -1 then some v.frameId else none) = some v.frameId
        rw [if_pos (by omega)]
      have hg2 : (if ¬r.cache.isEmpty then LRUK.cacheVictim r.k r.cache
          else none) = some v.frameId := by
        rw [if_pos (by simp [List.ne_nil_of_mem hnc])]
        exact hcv
      obtain ⟨v2, hv2m, hv2e, hv2f, hv2min⟩ :=
        lruk_cacheVictim_node r.k r.cache v.frameId hcv
      refine ⟨v2, List.mem_append_right _ hv2m, hv2e, hInv.cacheLo v2 hv2m,
        ?_, ?_⟩
      · rw [lruk_evict_eq_cache r v.frameId h0 hg1 hg2, hv2f]
      · intro m hm hme
        have hmc : m ∈ r.cache := by
          rcases List.mem_append.mp hm with h1 | h1
          · exact absurd hme (hhx m h1)
          · exact h1
        exact hv2min m hmc hme

/-- C2 witness: the policy theorem applied to the concrete reachable state
after `record_access(0)`, `record_access(1)`, `set_evictable(0, true)` on a
replacer with 3 frames and `k = 2`; there `Evict` chooses frame 0. -/
theorem C2_evict_policy_witness :
    ((LRUK.evict c2state).1 = none ↔
      ∀ n ∈ c2state.history ++ c2state.cache, n.evictable = false) ∧
    ((∃ n ∈ c2state.history ++ c2state.cache,
        n.evictable = true ∧ n.accessCount < c2state.k) →
      ∃ v ∈ c2state.history ++ c2state.cache,
        v.evictable = true ∧ v.accessCount < c2state.k ∧
        (LRUK.evict c2state).1 = some v.frameId ∧
        ∀ m ∈ c2state.history ++ c2state.cache,
          m.evictable = true → m.accessCount < c2state.k →
          v.earliestAccess ≤ m.earliestAccess) ∧
    ((∀ n ∈ c2state.history ++ c2state.cache,
        n.evictable = true → c2state.k ≤ n.accessCount) →
      (∃ n ∈ c2state.history ++ c2state.cache, n.evictable = true) →
      ∃ v ∈ c2state.history ++ c2state.cache,
        v.evictable = true ∧ c2state.k ≤ v.accessCount ∧
        (LRUK.evict c2state).1 = some v.frameId ∧
        ∀ m ∈ c2state.history ++ c2state.cache, m.evictable = true →
          v.kthRecent c2state.k ≤ m.kthRecent c2state.k) :=
  C2_evict_policy c2state
    (LRUK.Reach.setEv 0 true
      (LRUK.recordAccess 1 (LRUK.recordAccess 0 (LRUK.Replacer.init 3 2)))
      c2state
      (LRUK.Reach.record 1 _
        (LRUK.Reach.record 0 _ (LRUK.Reach.init 3 2 (by decide))))
      (by decide))


end BusTub
